import Mathlib

/-!
Verification of the Astor workflow engine (`src/workflow.core.ts`,
`src/step.core.ts`) against its natural-language specification.

The TypeScript code is shallowly embedded: JavaScript runtime values are the
inductive type `Value`; records/objects are association lists; thrown
`Error(msg)` values are `Except.error msg`; asynchronous step work functions
become pure Lean functions from input and the current results store to a list
of context writes plus an outcome.  JavaScript strict equality `===` is
modelled structurally on `Value` (the engine never relies on object identity).
-/

/-- A JavaScript runtime value, as manipulated by the engine.  `undefined` is the
distinguished `undefined` value produced by missing-property reads; numbers
are modelled as integers (no claim under check depends on float semantics). -/
inductive Value where
  | undefined : Value
  | null : Value
  | bool (b : Bool) : Value
  | num (n : Int) : Value
  | str (s : String) : Value
  | arr (elems : List Value) : Value
  | obj (fields : List (String × Value)) : Value
deriving Repr

mutual
/-- Structural equality on `Value`, the model of JavaScript strict equality
`===` as used by the engine (`value === condition.$eq`,
`condition.$in.includes(value)`). -/
def Value.beq : Value → Value → Bool
  | .undefined, .undefined => true
  | .null, .null => true
  | .bool a, .bool b => a == b
  | .num a, .num b => a == b
  | .str a, .str b => a == b
  | .arr a, .arr b => Value.beqList a b
  | .obj a, .obj b => Value.beqFields a b
  | _, _ => false

/-- Element-wise `Value.beq` on lists. -/
def Value.beqList : List Value → List Value → Bool
  | [], [] => true
  | a :: as, b :: bs => Value.beq a b && Value.beqList as bs
  | _, _ => false

/-- Field-wise `Value.beq` on association lists. -/
def Value.beqFields : List (String × Value) → List (String × Value) → Bool
  | [], [] => true
  | (ka, va) :: as, (kb, vb) :: bs =>
    ka == kb && Value.beq va vb && Value.beqFields as bs
  | _, _ => false
end

/-- JavaScript truthiness of a value (`undefined`, `null`, `false`, `0` and
`""` are falsy). -/
def Value.truthy : Value → Bool
  | .undefined => false
  | .null => false
  | .bool b => b
  | .num n => n != 0
  | .str s => s ≠ ""
  | .arr _ => true
  | .obj _ => true

/-- Property access `o[i]`: on objects, look the key up among the fields
(`undefined` when absent); on strings, the own property `length`; every other
access yields `undefined`. -/
def Value.get : Value → String → Value
  | .obj fields, key =>
    match fields.find? (fun f => f.1 = key) with
    | some f => f.2
    | none => .undefined
  | .str s, key => if key = "length" then .num s.length else .undefined
  | _, _ => .undefined

/-- One step of the dot-path descent, from the source reducer
`(o, i) => (o ? o[i] : undefined)`. -/
def pathStep (o : Value) (i : String) : Value :=
  if o.truthy then o.get i else .undefined

/-- Split a character list at occurrences of `sep`, keeping empty segments,
exactly as JavaScript `split` does (`"a..b".split('.') = ["a","","b"]`). -/
def splitCharAux (sep : Char) : List Char → List (List Char)
  | [] => [[]]
  | c :: rest =>
    match splitCharAux sep rest with
    | [] => [[]]
    | seg :: segs => if c = sep then [] :: seg :: segs else (c :: seg) :: segs

/-- Embeds `path.split('.')`. -/
def splitDot (p : String) : List String :=
  (splitCharAux '.' p.data).map (fun l => String.mk l)

/-- Embeds `getValueByPath(obj, path)`: `if (!path) return obj;` then
`path.split('.').reduce((o, i) => (o ? o[i] : undefined), obj)`.  A `none`
path models an omitted argument; the empty string is falsy, hence also
returns `obj`. -/
def getValueByPath (obj : Value) (path : Option String) : Value :=
  match path with
  | none => obj
  | some p => if p = "" then obj else (splitDot p).foldl pathStep obj

example : getValueByPath (.obj [("a", .obj [("b", .num 3)])]) (some "a.b") = .num 3 := rfl
example : getValueByPath (.obj [("a", .num 1)]) (some "a.b.c") = .undefined := rfl
example : getValueByPath (.obj [("x", .str "")]) (some "x.length") = .undefined := rfl
example : (Value.str "").get "length" = .num 0 := rfl

/-- Tests whether a value is the JavaScript `undefined`, the guard
`!== undefined` of each operator branch in `evaluateCondition`. -/
def isUndefined : Value → Bool
  | .undefined => true
  | _ => false

/-- `typeof value === 'number' && value > g`. -/
def numGt (v : Value) (g : Int) : Bool :=
  match v with
  | .num n => n > g
  | _ => false

/-- `typeof value === 'number' && value >= g`. -/
def numGte (v : Value) (g : Int) : Bool :=
  match v with
  | .num n => n ≥ g
  | _ => false

/-- `typeof value === 'number' && value < g`. -/
def numLt (v : Value) (g : Int) : Bool :=
  match v with
  | .num n => n < g
  | _ => false

/-- `typeof value === 'number' && value <= g`. -/
def numLte (v : Value) (g : Int) : Bool :=
  match v with
  | .num n => n ≤ g
  | _ => false

/-- The `ConditionalQuery` type of `workflow.core.ts`: every operator field is
optional.  `$eq`/`$neq` have TypeScript type `any`, so an absent field is the
same `undefined` the code's `!== undefined` guard tests; they are embedded as
plain `Value` with `Value.undefined` for "absent".  The numeric comparisons are
typed `number`, `$in`/`$nin` `any[]`, `$exists` `boolean` and `$and`/`$or`
`ConditionalQuery[]`; those are embedded as `Option` of the corresponding
type, `none` for "absent". -/
inductive ConditionalQuery where
  | mk (qEq qNeq : Value) (qGt qGte qLt qLte : Option Int)
      (qIn qNin : Option (List Value)) (qExists : Option Bool)
      (qAnd qOr : Option (List ConditionalQuery)) : ConditionalQuery

def ConditionalQuery.qEq : ConditionalQuery → Value
  | .mk e _ _ _ _ _ _ _ _ _ _ => e

def ConditionalQuery.qNeq : ConditionalQuery → Value
  | .mk _ n _ _ _ _ _ _ _ _ _ => n

def ConditionalQuery.qGt : ConditionalQuery → Option Int
  | .mk _ _ g _ _ _ _ _ _ _ _ => g

def ConditionalQuery.qGte : ConditionalQuery → Option Int
  | .mk _ _ _ g _ _ _ _ _ _ _ => g

def ConditionalQuery.qLt : ConditionalQuery → Option Int
  | .mk _ _ _ _ l _ _ _ _ _ _ => l

def ConditionalQuery.qLte : ConditionalQuery → Option Int
  | .mk _ _ _ _ _ l _ _ _ _ _ => l

def ConditionalQuery.qIn : ConditionalQuery → Option (List Value)
  | .mk _ _ _ _ _ _ i _ _ _ _ => i

def ConditionalQuery.qNin : ConditionalQuery → Option (List Value)
  | .mk _ _ _ _ _ _ _ i _ _ _ => i

def ConditionalQuery.qExists : ConditionalQuery → Option Bool
  | .mk _ _ _ _ _ _ _ _ e _ _ => e

def ConditionalQuery.qAnd : ConditionalQuery → Option (List ConditionalQuery)
  | .mk _ _ _ _ _ _ _ _ _ a _ => a

def ConditionalQuery.qOr : ConditionalQuery → Option (List ConditionalQuery)
  | .mk _ _ _ _ _ _ _ _ _ _ o => o

mutual
/-- Embeds `evaluateCondition(condition, value)`: the chain of
`if (condition.$op !== undefined) return ...;` branches in source order
(`$eq`, `$neq`, `$gt`, `$gte`, `$lt`, `$lte`, `$in`, `$nin`, `$exists`,
`$and`, `$or`), falling through to `true` when no operator is present. -/
def evaluateCondition (condition : ConditionalQuery) (value : Value) : Bool :=
  match condition with
  | .mk qe qn qgt qgte qlt qlte qin qnin qex qand qor =>
    if isUndefined qe = false then Value.beq value qe
    else if isUndefined qn = false then !(Value.beq value qn)
    else match qgt with
    | some g => numGt value g
    | none => match qgte with
    | some g => numGte value g
    | none => match qlt with
    | some g => numLt value g
    | none => match qlte with
    | some g => numLte value g
    | none => match qin with
    | some l => l.any (fun e => Value.beq e value)
    | none => match qnin with
    | some l => !(l.any (fun e => Value.beq e value))
    | none => match qex with
    | some b => (!(Value.beq value .undefined) && !(Value.beq value .null)) == b
    | none => match qand with
    | some l => evalCondAll l value
    | none => match qor with
    | some l => evalCondAny l value
    | none => true

/-- Embeds `condition.$and.every(sub => evaluateCondition(sub, value))`. -/
def evalCondAll (l : List ConditionalQuery) (value : Value) : Bool :=
  match l with
  | [] => true
  | c :: cs => evaluateCondition c value && evalCondAll cs value

/-- Embeds `condition.$or.some(sub => evaluateCondition(sub, value))`. -/
def evalCondAny (l : List ConditionalQuery) (value : Value) : Bool :=
  match l with
  | [] => false
  | c :: cs => evaluateCondition c value || evalCondAny cs value
end

/-- The query with no operator present. -/
def emptyQuery : ConditionalQuery :=
  .mk .undefined .undefined none none none none none none none none none

example : evaluateCondition emptyQuery (.num 3) = true := rfl
example :
    evaluateCondition
      (.mk (.num 1) .undefined none none none none none none none none
        (some [emptyQuery])) (.num 2) = false := rfl

/-- `foldl pathStep` never recovers once the accumulator is `undefined`. -/
theorem foldl_pathStep_undef (segs : List String) :
    List.foldl pathStep Value.undefined segs = Value.undefined := by
  induction segs with
  | nil => rfl
  | cons s rest ih => simpa [pathStep, Value.truthy] using ih

/-- C6: for every value `x`, the `$and` combinator applied to an empty list of
subexpressions evaluates to `true` against `x`, and the `$or` combinator
applied to an empty list evaluates to `false` against `x`. -/
theorem claim_C6_empty_combinators (x : Value) :
    evaluateCondition
      (.mk .undefined .undefined none none none none none none none (some []) none)
      x = true ∧
    evaluateCondition
      (.mk .undefined .undefined none none none none none none none none (some []))
      x = false :=
  ⟨rfl, rfl⟩

/-- C7: dot-path resolution is a total function (the embedding returns a
`Value` for every input, never an error); when no path is given the whole
referenced value is returned, and when some segment of the path is absent
from the container reached at that point, the result is `undefined`. -/
theorem claim_C7_path_resolution_total :
    (∀ obj : Value, getValueByPath obj none = obj) ∧
    (∀ (obj : Value) (p : String) (pre : List String) (seg : String)
      (rest : List String), p ≠ "" → splitDot p = pre ++ seg :: rest →
      Value.get (List.foldl pathStep obj pre) seg = Value.undefined →
      getValueByPath obj (some p) = Value.undefined) := by
  constructor
  · intro obj; rfl
  · intro obj p pre seg rest hp hsplit hget
    show (if p = "" then obj else (splitDot p).foldl pathStep obj) = Value.undefined
    rw [if_neg hp, hsplit, List.foldl_append, List.foldl_cons]
    have hstep : pathStep (List.foldl pathStep obj pre) seg = Value.undefined := by
      unfold pathStep
      split
      · exact hget
      · rfl
    rw [hstep, foldl_pathStep_undef]

/-- Witness for C7 at a concrete input: looking up the single-segment path
`"b"` in an object that has no `"b"` field yields `undefined`. -/
theorem claim_C7_witness :
    getValueByPath (.obj [("a", .num 1)]) (some "b") = Value.undefined :=
  claim_C7_path_resolution_total.2 (.obj [("a", .num 1)]) "b" [] "b" []
    (by decide) (by decide) rfl

/-- C10: for every non-empty dot-path, if the value reached before some
remaining segment is falsy (`undefined`, `null`, `false`, `0` or `""`), the
resolution returns `undefined` — the descent is guarded by truthiness of the
container, even when the next segment is a present property of it. -/
theorem claim_C10_falsy_guard (obj : Value) (p : String) (pre : List String)
    (seg : String) (rest : List String) (hp : p ≠ "")
    (hsplit : splitDot p = pre ++ seg :: rest)
    (hfalsy : Value.truthy (List.foldl pathStep obj pre) = false) :
    getValueByPath obj (some p) = Value.undefined := by
  show (if p = "" then obj else (splitDot p).foldl pathStep obj) = Value.undefined
  rw [if_neg hp, hsplit, List.foldl_append, List.foldl_cons]
  have hstep : pathStep (List.foldl pathStep obj pre) seg = Value.undefined := by
    have h := hfalsy
    unfold pathStep at h ⊢
    rw [if_neg (by simp [h])]
  rw [hstep, foldl_pathStep_undef]

/-- Witness for C10 at a concrete input: the container reached by `"x"` is
the empty string, which is falsy, so `"x.length"` resolves to `undefined`
even though `length` is a present property of `""` (it reads `0`). -/
theorem claim_C10_witness :
    getValueByPath (.obj [("x", .str "")]) (some "x.length") = Value.undefined ∧
    (Value.str "").get "length" = Value.num 0 :=
  ⟨claim_C10_falsy_guard (.obj [("x", .str "")]) "x.length" ["x"] "length" []
    (by decide) (by decide) rfl, rfl⟩

/-- C9: `evaluateCondition` consults at most one operator, chosen by the
fixed source order `$eq`, `$neq`, `$gt`, `$gte`, `$lt`, `$lte`, `$in`,
`$nin`, `$exists`, `$and`, `$or`: whenever an operator is present (not
`undefined`), the result is that operator's comparison alone, regardless of
every operator later in the order; with no operator present the result is
`true`. -/
theorem claim_C9_operator_priority (q : ConditionalQuery) (v : Value) :
    (isUndefined q.qEq = false → evaluateCondition q v = Value.beq v q.qEq) ∧
    (isUndefined q.qEq = true → isUndefined q.qNeq = false →
      evaluateCondition q v = !(Value.beq v q.qNeq)) ∧
    (∀ g, isUndefined q.qEq = true → isUndefined q.qNeq = true → q.qGt = some g →
      evaluateCondition q v = numGt v g) ∧
    (∀ g, isUndefined q.qEq = true → isUndefined q.qNeq = true → q.qGt = none →
      q.qGte = some g → evaluateCondition q v = numGte v g) ∧
    (∀ g, isUndefined q.qEq = true → isUndefined q.qNeq = true → q.qGt = none →
      q.qGte = none → q.qLt = some g → evaluateCondition q v = numLt v g) ∧
    (∀ g, isUndefined q.qEq = true → isUndefined q.qNeq = true → q.qGt = none →
      q.qGte = none → q.qLt = none → q.qLte = some g →
      evaluateCondition q v = numLte v g) ∧
    (∀ l, isUndefined q.qEq = true → isUndefined q.qNeq = true → q.qGt = none →
      q.qGte = none → q.qLt = none → q.qLte = none → q.qIn = some l →
      evaluateCondition q v = l.any (fun e => Value.beq e v)) ∧
    (∀ l, isUndefined q.qEq = true → isUndefined q.qNeq = true → q.qGt = none →
      q.qGte = none → q.qLt = none → q.qLte = none → q.qIn = none →
      q.qNin = some l →
      evaluateCondition q v = !(l.any (fun e => Value.beq e v))) ∧
    (∀ b, isUndefined q.qEq = true → isUndefined q.qNeq = true → q.qGt = none →
      q.qGte = none → q.qLt = none → q.qLte = none → q.qIn = none →
      q.qNin = none → q.qExists = some b →
      evaluateCondition q v
        = ((!(Value.beq v .undefined) && !(Value.beq v .null)) == b)) ∧
    (∀ l, isUndefined q.qEq = true → isUndefined q.qNeq = true → q.qGt = none →
      q.qGte = none → q.qLt = none → q.qLte = none → q.qIn = none →
      q.qNin = none → q.qExists = none → q.qAnd = some l →
      evaluateCondition q v = evalCondAll l v) ∧
    (∀ l, isUndefined q.qEq = true → isUndefined q.qNeq = true → q.qGt = none →
      q.qGte = none → q.qLt = none → q.qLte = none → q.qIn = none →
      q.qNin = none → q.qExists = none → q.qAnd = none → q.qOr = some l →
      evaluateCondition q v = evalCondAny l v) ∧
    (isUndefined q.qEq = true → isUndefined q.qNeq = true → q.qGt = none →
      q.qGte = none → q.qLt = none → q.qLte = none → q.qIn = none →
      q.qNin = none → q.qExists = none → q.qAnd = none → q.qOr = none →
      evaluateCondition q v = true) := by
  obtain ⟨qe, qn, qgt, qgte, qlt, qlte, qin, qnin, qex, qand, qor⟩ := q
  simp only [ConditionalQuery.qEq, ConditionalQuery.qNeq, ConditionalQuery.qGt,
    ConditionalQuery.qGte, ConditionalQuery.qLt, ConditionalQuery.qLte,
    ConditionalQuery.qIn, ConditionalQuery.qNin, ConditionalQuery.qExists,
    ConditionalQuery.qAnd, ConditionalQuery.qOr]
  simp only [evaluateCondition.eq_def]
  refine ⟨?_, ?_, ?_, ?_, ?_, ?_, ?_, ?_, ?_, ?_, ?_, ?_⟩ <;>
    (intros; subst_vars; simp [*])

/-- Witness for C9 at a concrete input: a query carrying both `$eq` and
`$or` (and `$exists`) evaluates by `$eq` alone. -/
theorem claim_C9_witness :
    evaluateCondition
      (.mk (.num 1) .undefined none none none none none none (some false)
        none (some [emptyQuery])) (.num 1)
      = Value.beq (.num 1) (.num 1) :=
  (claim_C9_operator_priority
    (.mk (.num 1) .undefined none none none none none none (some false)
      none (some [emptyQuery])) (.num 1)).1 rfl

/-- A `StepReference` (`{ step, path? }`). -/
structure StepReference where
  step : String
  path : Option String

/-- A `StepCondition` (`{ ref, query }`). -/
structure StepCondition where
  ref : StepReference
  query : ConditionalQuery

/-- One value of a `VariableMapping`: the scheduler distinguishes step
references (`typeof mapping === 'object' && 'step' in mapping`) from every
other value, which is used verbatim; the two source cases are the two
constructors. -/
inductive VarMapping where
  | ref (r : StepReference)
  | lit (v : Value)

/-- A `VariableMapping` record: input field name to reference or literal. -/
abbrev VariableMapping := List (String × VarMapping)

/-- The per-run results record.  A write `results[k] = v` conses `(k, v)`;
reads take the newest binding, so the list is an object with string keys. -/
abbrev Results := List (String × Value)

/-- Lookup of a record key (`none` models a key that was never written). -/
def lookupKey {α : Type} (m : List (String × α)) (k : String) : Option α :=
  (m.find? (fun e => e.1 = k)).map (fun e => e.2)

/-- The JavaScript read `m[k]`, which is `undefined` for an absent key. -/
def readRes (r : Results) (k : String) : Value :=
  (lookupKey r k).getD .undefined

/-- The assignment `m[k] = v`. -/
def setKey {α : Type} (m : List (String × α)) (k : String) (v : α) :
    List (String × α) :=
  (k, v) :: m

/-- Outcome of one invocation of a step's work function: the list of
`context.setStepResult` writes it performed (in order), then either the
returned value or the message of the thrown error. -/
abbrev StepOutcome := List (String × Value) × Except String Value

/-- `StepConfig` from `step.core.ts`.  `inputSchema` is declared in the
source type but never consulted by the engine, so its content is irrelevant
and it is embedded as `Option Unit`.  The asynchronous
`execute({input, context})` becomes a pure function of the input value and
the results store visible through the context. -/
structure StepConfig where
  id : String
  description : String
  inputSchema : Option Unit
  execute : Value → Results → StepOutcome

/-- `Step` from `step.core.ts`. -/
structure Step where
  config : StepConfig
  execute : Value → Results → StepOutcome

/-- Embeds `createStep(config)`. -/
def createStep (config : StepConfig) : Step :=
  ⟨config, config.execute⟩

/-- `WorkflowConfig`.  The trigger schema is embedded as a validator that
returns `none` on success and `some msg` when `parse` throws an error with
message `msg` (zod's `parse` throws `ZodError`, which is an `Error`).  The
logger is purely observational and is not modelled. -/
structure WorkflowConfig where
  name : String
  triggerSchema : Option (Value → Option String)

/-- `StepOptions` (`{ when?, variables? }`); the source field names `when`
and `variables` are reserved words in Lean, hence `whenCond` and
`variablesMap`. -/
structure StepOptions where
  whenCond : Option StepCondition
  variablesMap : Option VariableMapping

/-- The `Workflow` record built by `createWorkflow`. -/
structure Workflow where
  config : WorkflowConfig
  steps : List Step
  dependencies : List (String × List String)
  conditions : List (String × StepCondition)
  variablesMap : List (String × VariableMapping)
  currentDependency : Option (String ⊕ List String)

/-- Embeds `createWorkflow(config)`: the empty builder state. -/
def createWorkflow (config : WorkflowConfig) : Workflow :=
  ⟨config, [], [], [], [], none⟩

/-- JavaScript truthiness of the `currentDependency` field: `null` and the
empty string are falsy, every array (even empty) is truthy. -/
def currentDepTruthy : Option (String ⊕ List String) → Bool
  | none => false
  | some (.inl s) => s ≠ ""
  | some (.inr _) => true

/-- Embeds the builder method `step(stepDefinition, options?)`: pushes the
step, initializes its dependency list when the key is absent, consumes a
truthy `currentDependency` marker (array spread or single push), and stores
`options.when` / `options.variables` when given.  No other validation is
performed. -/
def Workflow.addStep (w : Workflow) (stepDefinition : Step)
    (options : Option StepOptions) : Workflow :=
  let id := stepDefinition.config.id
  let deps0 :=
    match lookupKey w.dependencies id with
    | none => setKey w.dependencies id []
    | some _ => w.dependencies
  let deps1 :=
    if currentDepTruthy w.currentDependency then
      match w.currentDependency with
      | some (.inr ids) => setKey deps0 id ((lookupKey deps0 id).getD [] ++ ids)
      | some (.inl pid) => setKey deps0 id ((lookupKey deps0 id).getD [] ++ [pid])
      | none => deps0
    else deps0
  let newCur :=
    if currentDepTruthy w.currentDependency then none else w.currentDependency
  let conds :=
    match options.bind (fun o => o.whenCond) with
    | some c => setKey w.conditions id c
    | none => w.conditions
  let vars :=
    match options.bind (fun o => o.variablesMap) with
    | some vm => setKey w.variablesMap id vm
    | none => w.variablesMap
  { w with steps := w.steps ++ [stepDefinition], dependencies := deps1,
           conditions := conds, variablesMap := vars, currentDependency := newCur }

/-- Embeds the builder method `then(stepDefinition, options?)` (named
`thenStep` because `then` is reserved in Lean): fails when no step exists,
otherwise pushes the step with the previously last step as an extra
dependency. -/
def Workflow.thenStep (w : Workflow) (stepDefinition : Step)
    (options : Option StepOptions) : Except String Workflow :=
  if w.steps.length = 0 then
    .error "Cannot call \x22then\x22 without a previous step"
  else
    let id := stepDefinition.config.id
    let previousStepId := (w.steps.getLast?.map (fun s => s.config.id)).getD ""
    let deps0 :=
      match lookupKey w.dependencies id with
      | none => setKey w.dependencies id []
      | some _ => w.dependencies
    let deps1 := setKey deps0 id ((lookupKey deps0 id).getD [] ++ [previousStepId])
    let conds :=
      match options.bind (fun o => o.whenCond) with
      | some c => setKey w.conditions id c
      | none => w.conditions
    let vars :=
      match options.bind (fun o => o.variablesMap) with
      | some vm => setKey w.variablesMap id vm
      | none => w.variablesMap
    .ok { w with steps := w.steps ++ [stepDefinition], dependencies := deps1,
                 conditions := conds, variablesMap := vars }

/-- Embeds the builder method `after(stepId)`: records the pending
dependency marker consumed by the next `step` call. -/
def Workflow.after (w : Workflow) (stepId : String ⊕ List String) : Workflow :=
  { w with currentDependency := some stepId }

/-- `workflow.dependencies[stepId] || []` as read by `commit` and the
scheduler. -/
def Workflow.depsOf (w : Workflow) (stepId : String) : List String :=
  (lookupKey w.dependencies stepId).getD []

mutual
/-- Embeds commit's recursive `checkCycle(stepId)`: return `true` on a node
in the recursion stack, `false` on an already-visited node, otherwise mark
visited, push the stack and scan the dependency list.  The source mutates
two `Set`s; here `visited` is threaded and returned, while the stack is
passed downward only (on every `false` return the source restores it
exactly, and on `true` the caller throws).  The `fuel` argument is an
embedding artifact that makes the recursion structural; `none` means fuel
ran out, and `commit` passes enough fuel for that never to happen
(`checkCycle_enough_fuel`). -/
def checkCycle (d : String → List String) (fuel : Nat) (stepId : String)
    (visited stack : List String) : Option (Bool × List String) :=
  match fuel with
  | 0 => none
  | fuel + 1 =>
    if stepId ∈ stack then some (true, visited)
    else if stepId ∈ visited then some (false, visited)
    else checkCycleDeps d fuel (d stepId) (stepId :: visited) (stepId :: stack)

/-- The `for (const dep of deps) { if (checkCycle(dep)) return true; }` loop
inside `checkCycle`, threading `visited`. -/
def checkCycleDeps (d : String → List String) (fuel : Nat)
    (deps : List String) (visited stack : List String) :
    Option (Bool × List String) :=
  match fuel with
  | 0 => none
  | fuel + 1 =>
    match deps with
    | [] => some (false, visited)
    | dep :: rest =>
      match checkCycle d fuel dep visited stack with
      | none => none
      | some (true, v) => some (true, v)
      | some (false, v) => checkCycleDeps d fuel rest v stack
end

/-- The id universe of a workflow: every registered step id and every id
mentioned in a dependency list.  Each id `checkCycle` can ever visit lies in
here, which bounds the fuel `commit` needs. -/
def Workflow.univ (w : Workflow) : List String :=
  w.steps.map (fun s => s.config.id) ++ (w.dependencies.map (fun e => e.2)).flatten

/-- Fuel that `commit` hands to `checkCycle`: two units per universe node
plus its out-degree, plus one (shown sufficient by
`checkCycle_enough_fuel`). -/
def Workflow.cycleFuel (w : Workflow) : Nat :=
  ((w.univ.dedup).map (fun x => 2 + (w.depsOf x).length)).sum + 1

/-- The `for (const step of workflow.steps) { if (checkCycle(step.config.id))
throw ... }` loop of `commit`: `visited` persists across iterations, the
recursion stack starts empty each time (it is restored by every `false`
return).  Returns `some true` when a cycle was reported, `some false` when
all scans came back clean, `none` if fuel ran out (never, see
`commitScan_enough_fuel`). -/
def commitScan (w : Workflow) : List Step → List String → Option Bool
  | [], _ => some false
  | s :: rest, visited =>
    match checkCycle w.depsOf w.cycleFuel s.config.id visited [] with
    | none => none
    | some (true, _) => some true
    | some (false, v) => commitScan w rest v

/-- Embeds `commit()`: throws `Error('Workflow must have at least one step')`
on an empty step list, throws
`Error('Circular dependency detected in workflow')` when the DFS reports a
cycle, and otherwise returns the same workflow.  The impossible fuel-exhausted
outcome is mapped to the cycle error (and proved unreachable). -/
def Workflow.commit (w : Workflow) : Except String Workflow :=
  if w.steps.length = 0 then .error "Workflow must have at least one step"
  else
    match commitScan w w.steps [] with
    | some false => .ok w
    | _ => .error "Circular dependency detected in workflow"

/-- A placeholder work function for steps whose body is irrelevant. -/
def nopExec : Value → Results → StepOutcome :=
  fun _ _ => ([], .ok .null)

/-- A named step with the placeholder body. -/
def mkStep (id : String) : Step :=
  createStep ⟨id, "", none, nopExec⟩

example :
    ((createWorkflow ⟨"wf", none⟩).addStep (mkStep "a") none).commit
      = .ok ((createWorkflow ⟨"wf", none⟩).addStep (mkStep "a") none) := rfl

example : (createWorkflow ⟨"wf", none⟩).commit
    = .error "Workflow must have at least one step" := rfl

example :
    (((createWorkflow ⟨"wf", none⟩).addStep (mkStep "a") none).after (.inl "b")
        |>.addStep (mkStep "b") none).commit
      = .error "Circular dependency detected in workflow" := by rfl

/-- The dependency edge relation of a graph `d`: `depRel d x y` when `y` is
listed among the dependencies of `x`. -/
def depRel (d : String → List String) (x y : String) : Prop :=
  y ∈ d x

/-- Fuel needed by `checkCycle` from a given visited set: two units plus the
out-degree for every not-yet-visited universe node. -/
def fuelNeed (d : String → List String) (U : List String)
    (visited : List String) : Nat :=
  ((U.dedup.filter (fun y => y ∉ visited)).map (fun x => 2 + (d x).length)).sum

/-- Summing `f` over the unvisited part of a duplicate-free list splits off
exactly one term when one more member gets visited. -/
theorem sum_filter_visit (f : String → Nat) :
    ∀ (L : List String), L.Nodup → ∀ (x : String) (visited : List String),
      x ∈ L → x ∉ visited →
      ((L.filter (fun y => y ∉ visited)).map f).sum
        = f x + ((L.filter (fun y => y ∉ (x :: visited))).map f).sum := by
  intro L
  induction L with
  | nil => intro _ x visited hx; exact absurd hx (List.not_mem_nil x)
  | cons a L ih =>
    intro hnd x visited hx hxv
    have hndL : L.Nodup := hnd.of_cons
    by_cases hax : a = x
    · subst hax
      have haL : a ∉ L := (List.nodup_cons.mp hnd).1
      have hfilters :
          L.filter (fun y => y ∉ (a :: visited)) = L.filter (fun y => y ∉ visited) := by
        apply List.filter_congr
        intro y hy
        have hya : y ≠ a := fun h => haL (h ▸ hy)
        simp [List.mem_cons, hya]
      rw [List.filter_cons_of_pos (by simpa using hxv),
          List.filter_cons_of_neg (by simp), hfilters]
      simp
    · have hxL : x ∈ L := by
        rcases List.mem_cons.mp hx with h | h
        · exact absurd h.symm hax
        · exact h
      have hrec := ih hndL x visited hxL hxv
      by_cases hav : a ∈ visited
      · rw [List.filter_cons_of_neg (by simpa using hav),
            List.filter_cons_of_neg (by simp [List.mem_cons, hav]), hrec]
      · rw [List.filter_cons_of_pos (by simpa using hav),
            List.filter_cons_of_pos (by simp [List.mem_cons, hav, hax])]
        simp only [List.map_cons, List.sum_cons, hrec]
        omega

/-- Growing the visited set can only lower the remaining fuel need. -/
theorem sum_filter_mono (f : String → Nat) :
    ∀ (L : List String) (v v' : List String), (∀ y, y ∈ v → y ∈ v') →
      ((L.filter (fun y => y ∉ v')).map f).sum
        ≤ ((L.filter (fun y => y ∉ v)).map f).sum := by
  intro L v v' hsub
  induction L with
  | nil => simp
  | cons a L ih =>
    by_cases hav' : a ∈ v'
    · rw [List.filter_cons_of_neg (by simpa using hav')]
      by_cases hav : a ∈ v
      · rw [List.filter_cons_of_neg (by simpa using hav)]
        exact ih
      · rw [List.filter_cons_of_pos (by simpa using hav)]
        simp only [List.map_cons, List.sum_cons]
        omega
    · have hav : a ∉ v := fun h => hav' (hsub a h)
      rw [List.filter_cons_of_pos (by simpa using hav'),
          List.filter_cons_of_pos (by simpa using hav)]
      simp only [List.map_cons, List.sum_cons]
      omega

/-- `fuelNeed` splits off `2 + outdegree x` when `x` joins the visited set. -/
theorem fuelNeed_visit (d : String → List String) (U : List String)
    (x : String) (visited : List String) (hx : x ∈ U) (hxv : x ∉ visited) :
    fuelNeed d U visited
      = 2 + (d x).length + fuelNeed d U (x :: visited) := by
  have h := sum_filter_visit (fun x => 2 + (d x).length) U.dedup U.nodup_dedup x
    visited (List.mem_dedup.mpr hx) hxv
  simp only at h
  unfold fuelNeed
  omega

/-- `fuelNeed` is antitone in the visited set. -/
theorem fuelNeed_mono (d : String → List String) (U : List String)
    (v v' : List String) (hsub : ∀ y, y ∈ v → y ∈ v') :
    fuelNeed d U v' ≤ fuelNeed d U v :=
  sum_filter_mono (fun x => 2 + (d x).length) U.dedup v v' hsub

/-- With enough fuel, `checkCycle` and `checkCycleDeps` return `some`, the
visited set only grows, and it stays inside the universe `U` (assuming every
dependency list lies in `U`). -/
theorem checkCycle_enough_fuel (d : String → List String) (U : List String)
    (Uc : ∀ x, ∀ y ∈ d x, y ∈ U) :
    ∀ f : Nat,
    (∀ x visited stack, x ∈ U → (∀ y ∈ visited, y ∈ U) →
      fuelNeed d U visited < f →
      ∃ b v', checkCycle d f x visited stack = some (b, v') ∧
        (∀ y ∈ visited, y ∈ v') ∧ (∀ y ∈ v', y ∈ U)) ∧
    (∀ l visited stack, (∀ y ∈ l, y ∈ U) → (∀ y ∈ visited, y ∈ U) →
      fuelNeed d U visited + l.length < f →
      ∃ b v', checkCycleDeps d f l visited stack = some (b, v') ∧
        (∀ y ∈ visited, y ∈ v') ∧ (∀ y ∈ v', y ∈ U)) := by
  intro f
  induction f with
  | zero =>
    constructor
    · intro x visited stack _ _ hf; omega
    · intro l visited stack _ _ hf; omega
  | succ f ih =>
    obtain ⟨ihP, ihQ⟩ := ih
    constructor
    · intro x visited stack hx hv hf
      by_cases hst : x ∈ stack
      · exact ⟨true, visited, by simp [checkCycle, hst], fun y hy => hy, hv⟩
      · by_cases hvis : x ∈ visited
        · exact ⟨false, visited, by simp [checkCycle, hst, hvis],
            fun y hy => hy, hv⟩
        · have hsplit := fuelNeed_visit d U x visited hx hvis
          have hv' : ∀ y ∈ (x :: visited), y ∈ U := by
            intro y hy
            rcases List.mem_cons.mp hy with h | h
            · exact h ▸ hx
            · exact hv y h
          have hfq : fuelNeed d U (x :: visited) + (d x).length < f := by omega
          obtain ⟨b, v', heq, hsub, hU⟩ :=
            ihQ (d x) (x :: visited) (x :: stack) (Uc x) hv' hfq
          refine ⟨b, v', ?_, ?_, hU⟩
          · simp [checkCycle, hst, hvis, heq]
          · intro y hy; exact hsub y (List.mem_cons_of_mem x hy)
    · intro l visited stack hl hv hf
      match l with
      | [] => exact ⟨false, visited, by simp [checkCycleDeps], fun y hy => hy, hv⟩
      | dep :: rest =>
        have hdep : dep ∈ U := hl dep (List.mem_cons_self dep rest)
        have hfp : fuelNeed d U visited < f := by
          simp only [List.length_cons] at hf; omega
        obtain ⟨b₁, v₁, heq₁, hsub₁, hU₁⟩ := ihP dep visited stack hdep hv hfp
        match b₁ with
        | true => exact ⟨true, v₁, by simp [checkCycleDeps, heq₁], hsub₁, hU₁⟩
        | false =>
          have hmono := fuelNeed_mono d U visited v₁ hsub₁
          have hfq : fuelNeed d U v₁ + rest.length < f := by
            simp only [List.length_cons] at hf; omega
          have hrest : ∀ y ∈ rest, y ∈ U :=
            fun y hy => hl y (List.mem_cons_of_mem dep hy)
          obtain ⟨b₂, v₂, heq₂, hsub₂, hU₂⟩ := ihQ rest v₁ stack hrest hU₁ hfq
          exact ⟨b₂, v₂, by simp [checkCycleDeps, heq₁, heq₂],
            fun y hy => hsub₂ y (hsub₁ y hy), hU₂⟩

/-- Soundness of the DFS: a `true` answer exhibits a real dependency cycle.
The stack invariant is that every stack entry reaches the current node. -/
theorem checkCycle_sound (d : String → List String) :
    ∀ f : Nat,
    (∀ x visited stack v',
      (∀ y ∈ stack, Relation.TransGen (depRel d) y x) →
      checkCycle d f x visited stack = some (true, v') →
      ∃ z, Relation.TransGen (depRel d) z z) ∧
    (∀ l visited stack v',
      (∀ y ∈ stack, ∀ dep ∈ l, Relation.TransGen (depRel d) y dep) →
      checkCycleDeps d f l visited stack = some (true, v') →
      ∃ z, Relation.TransGen (depRel d) z z) := by
  intro f
  induction f with
  | zero =>
    constructor
    · intro x visited stack v' _ heq; simp [checkCycle] at heq
    · intro l visited stack v' _ heq; simp [checkCycleDeps] at heq
  | succ f ih =>
    obtain ⟨ihP, ihQ⟩ := ih
    constructor
    · intro x visited stack v' hstack heq
      by_cases hst : x ∈ stack
      · exact ⟨x, hstack x hst⟩
      · by_cases hvis : x ∈ visited
        · simp [checkCycle, hst, hvis] at heq
        · simp only [checkCycle, if_neg hst, if_neg hvis] at heq
          apply ihQ (d x) (x :: visited) (x :: stack) v' ?_ heq
          intro y hy dep hdep
          rcases List.mem_cons.mp hy with h | h
          · exact h ▸ Relation.TransGen.single hdep
          · exact (hstack y h).trans (Relation.TransGen.single hdep)
    · intro l visited stack v' hstack heq
      match l with
      | [] => simp [checkCycleDeps] at heq
      | dep :: rest =>
        cases hc : checkCycle d f dep visited stack with
        | none => simp [checkCycleDeps, hc] at heq
        | some r =>
          obtain ⟨b, v₁⟩ := r
          cases b with
          | true =>
            exact ihP dep visited stack v₁
              (fun y hy => hstack y hy dep (List.mem_cons_self dep rest)) hc
          | false =>
            simp only [checkCycleDeps, hc] at heq
            exact ihQ rest v₁ stack v'
              (fun y hy dep' hdep' =>
                hstack y hy dep' (List.mem_cons_of_mem dep hdep')) heq

/-- A node that is fully explored: visited and no longer on the recursion
stack. -/
def Black (v st : List String) (y : String) : Prop :=
  y ∈ v ∧ y ∉ st

/-- The invariant of the cycle-detecting DFS when no cycle has been
reported: every fully-explored node has all its dependencies visited, cannot
reach any node still on the stack, and lies on no cycle. -/
def DfsInv (d : String → List String) (v st : List String) : Prop :=
  (∀ y, Black v st y → ∀ z ∈ d y, z ∈ v) ∧
  (∀ y, Black v st y → ∀ s ∈ st, ¬ Relation.ReflTransGen (depRel d) y s) ∧
  (∀ y, Black v st y → ¬ Relation.TransGen (depRel d) y y)

/-- The fully-explored region is closed under reachability. -/
theorem black_reach (d : String → List String) (v st : List String)
    (inv : DfsInv d v st) :
    ∀ y z, Black v st y → Relation.ReflTransGen (depRel d) y z →
      Black v st z := by
  intro y z hy hreach
  induction hreach with
  | refl => exact hy
  | tail _ hstep ih =>
    refine ⟨inv.1 _ ih _ hstep, fun hc => ?_⟩
    exact inv.2.1 _ ih _ hc (Relation.ReflTransGen.single hstep)

/-- Completeness core of the DFS: a `false` answer preserves `DfsInv`, only
grows the visited set, and leaves the inspected node (or dependency list)
fully explored. -/
theorem checkCycle_inv (d : String → List String) :
    ∀ f : Nat,
    (∀ x visited stack v', DfsInv d visited stack →
      checkCycle d f x visited stack = some (false, v') →
      (∀ y ∈ visited, y ∈ v') ∧ Black v' stack x ∧ DfsInv d v' stack) ∧
    (∀ l visited stack v', DfsInv d visited stack →
      checkCycleDeps d f l visited stack = some (false, v') →
      (∀ y ∈ visited, y ∈ v') ∧ (∀ dep ∈ l, Black v' stack dep) ∧
        DfsInv d v' stack) := by
  intro f
  induction f with
  | zero =>
    constructor
    · intro x visited stack v' _ heq; simp [checkCycle] at heq
    · intro l visited stack v' _ heq; simp [checkCycleDeps] at heq
  | succ f ih =>
    obtain ⟨ihP, ihQ⟩ := ih
    constructor
    · intro x visited stack v' inv heq
      by_cases hst : x ∈ stack
      · simp [checkCycle, hst] at heq
      · by_cases hvis : x ∈ visited
        · simp only [checkCycle, if_neg hst, if_pos hvis, Option.some.injEq,
            Prod.mk.injEq] at heq
          rcases heq with ⟨_, rfl⟩
          exact ⟨fun y hy => hy, ⟨hvis, hst⟩, inv⟩
        · simp only [checkCycle, if_neg hst, if_neg hvis] at heq
          have key : ∀ y, Black (x :: visited) (x :: stack) y →
              Black visited stack y := by
            intro y hy
            have hyx : y ≠ x := fun h => hy.2 (h ▸ List.mem_cons_self x stack)
            exact ⟨(List.mem_cons.mp hy.1).resolve_left hyx,
              fun h => hy.2 (List.mem_cons_of_mem x h)⟩
          have inv' : DfsInv d (x :: visited) (x :: stack) := by
            refine ⟨?_, ?_, ?_⟩
            · intro y hy z hz
              exact List.mem_cons_of_mem x (inv.1 y (key y hy) z hz)
            · intro y hy s hs hr
              rcases List.mem_cons.mp hs with h | h
              · subst h
                exact hvis (black_reach d visited stack inv y s (key y hy) hr).1
              · exact inv.2.1 y (key y hy) s h hr
            · intro y hy
              exact inv.2.2 y (key y hy)
          obtain ⟨hsub, hdeps, invq⟩ :=
            ihQ (d x) (x :: visited) (x :: stack) v' inv' heq
          have hxv' : x ∈ v' := hsub x (List.mem_cons_self x visited)
          have key2 : ∀ y, Black v' stack y →
              y = x ∨ Black v' (x :: stack) y := by
            intro y hy
            by_cases hyx : y = x
            · exact Or.inl hyx
            · exact Or.inr ⟨hy.1, fun h =>
                (List.mem_cons.mp h).elim hyx hy.2⟩
          refine ⟨fun y hy => hsub y (List.mem_cons_of_mem x hy),
            ⟨hxv', hst⟩, ?_, ?_, ?_⟩
          · intro y hy z hz
            rcases key2 y hy with h | hb
            · subst h; exact (hdeps z hz).1
            · exact invq.1 y hb z hz
          · intro y hy s hs hr
            rcases key2 y hy with h | hb
            · subst h
              rcases Relation.ReflTransGen.cases_head hr with h | ⟨c, hxc, hcr⟩
              · exact hst (h ▸ hs)
              · have hcb := black_reach d v' (y :: stack) invq c s
                  (hdeps c hxc) hcr
                exact hcb.2 (List.mem_cons_of_mem y hs)
            · exact invq.2.1 y hb s (List.mem_cons_of_mem x hs) hr
          · intro y hy hcyc
            rcases key2 y hy with h | hb
            · subst h
              rcases Relation.TransGen.head'_iff.mp hcyc with ⟨c, hxc, hcr⟩
              have hcb := black_reach d v' (y :: stack) invq c y
                (hdeps c hxc) hcr
              exact hcb.2 (List.mem_cons_self y stack)
            · exact invq.2.2 y hb hcyc
    · intro l visited stack v' inv heq
      match l with
      | [] =>
        simp only [checkCycleDeps, Option.some.injEq, Prod.mk.injEq] at heq
        rcases heq with ⟨_, rfl⟩
        exact ⟨fun y hy => hy, fun dep h => absurd h (List.not_mem_nil dep), inv⟩
      | dep :: rest =>
        cases hc : checkCycle d f dep visited stack with
        | none => simp [checkCycleDeps, hc] at heq
        | some r =>
          obtain ⟨b, v₁⟩ := r
          cases b with
          | true => simp [checkCycleDeps, hc] at heq
          | false =>
            simp only [checkCycleDeps, hc] at heq
            obtain ⟨hsub₁, hb₁, inv₁⟩ := ihP dep visited stack v₁ inv hc
            obtain ⟨hsub₂, hbs, inv₂⟩ := ihQ rest v₁ stack v' inv₁ heq
            refine ⟨fun y hy => hsub₂ y (hsub₁ y hy), ?_, inv₂⟩
            intro dep' hdep'
            rcases List.mem_cons.mp hdep' with h | h
            · exact h ▸ ⟨hsub₂ dep (h ▸ hb₁.1), hb₁.2⟩
            · exact hbs dep' h

/-- Every dependency of any node lies in the workflow's id universe. -/
theorem univ_closed (w : Workflow) : ∀ x, ∀ y ∈ w.depsOf x, y ∈ w.univ := by
  intro x y hy
  unfold Workflow.depsOf at hy
  cases hl : lookupKey w.dependencies x with
  | none => rw [hl] at hy; simp at hy
  | some l =>
    rw [hl] at hy
    simp only [Option.getD_some] at hy
    unfold lookupKey at hl
    cases hf : w.dependencies.find? (fun e => e.1 = x) with
    | none => rw [hf] at hl; simp at hl
    | some e =>
      rw [hf] at hl
      have hl2 : e.2 = l := by
        simpa using hl
      have he : e ∈ w.dependencies := List.mem_of_find?_eq_some hf
      unfold Workflow.univ
      apply List.mem_append_right
      exact List.mem_flatten.mpr ⟨e.2, List.mem_map_of_mem _ he, hl2 ▸ hy⟩

/-- Every registered step id lies in the universe. -/
theorem stepId_mem_univ (w : Workflow) (s : Step) (hs : s ∈ w.steps) :
    s.config.id ∈ w.univ :=
  List.mem_append_left _ (List.mem_map_of_mem _ hs)

/-- A node with an outgoing dependency edge is a key of the dependency
record. -/
theorem edge_mem_keys (w : Workflow) (z c : String)
    (h : depRel w.depsOf z c) : z ∈ w.dependencies.map (fun e => e.1) := by
  unfold depRel Workflow.depsOf at h
  cases hl : lookupKey w.dependencies z with
  | none => rw [hl] at h; simp at h
  | some l =>
    unfold lookupKey at hl
    cases hf : w.dependencies.find? (fun e => e.1 = z) with
    | none => rw [hf] at hl; simp at hl
    | some e =>
      have he : e ∈ w.dependencies := List.mem_of_find?_eq_some hf
      have hez : e.1 = z := by
        have := List.find?_some hf
        simpa using this
      exact hez ▸ List.mem_map_of_mem _ he

/-- `cycleFuel` is one more than the fuel needed from an empty visited set. -/
theorem cycleFuel_eq (w : Workflow) :
    w.cycleFuel = fuelNeed w.depsOf w.univ [] + 1 := by
  unfold Workflow.cycleFuel fuelNeed
  have hfl : List.filter (fun y => decide (y ∉ ([] : List String))) w.univ.dedup
      = w.univ.dedup :=
    List.filter_eq_self.mpr (fun y _ => by simp)
  rw [hfl]

/-- The commit scan never runs out of fuel. -/
theorem commitScan_some (w : Workflow) : ∀ steps visited,
    (∀ s ∈ steps, s.config.id ∈ w.univ) → (∀ y ∈ visited, y ∈ w.univ) →
    commitScan w steps visited ≠ none := by
  intro steps
  induction steps with
  | nil => intro visited _ _; simp [commitScan]
  | cons s rest ih =>
    intro visited hsteps hv
    have hfuel : fuelNeed w.depsOf w.univ visited < w.cycleFuel := by
      have h1 := fuelNeed_mono w.depsOf w.univ [] visited
        (fun y hy => absurd hy (List.not_mem_nil y))
      rw [cycleFuel_eq]
      omega
    obtain ⟨b, v', heq, hsub, hU⟩ :=
      (checkCycle_enough_fuel w.depsOf w.univ (univ_closed w) w.cycleFuel).1
        s.config.id visited [] (hsteps s (List.mem_cons_self s rest)) hv hfuel
    cases b with
    | true => simp [commitScan, heq]
    | false =>
      have := ih v' (fun t ht => hsteps t (List.mem_cons_of_mem s ht)) hU
      simp [commitScan, heq, this]

/-- When the commit scan reports a cycle, the graph really has one. -/
theorem commitScan_sound (w : Workflow) : ∀ steps visited,
    commitScan w steps visited = some true →
    ∃ z, Relation.TransGen (depRel w.depsOf) z z := by
  intro steps
  induction steps with
  | nil => intro visited h; simp [commitScan] at h
  | cons s rest ih =>
    intro visited h
    cases hc : checkCycle w.depsOf w.cycleFuel s.config.id visited [] with
    | none => simp [commitScan, hc] at h
    | some r =>
      obtain ⟨b, v₁⟩ := r
      cases b with
      | true =>
        exact (checkCycle_sound w.depsOf w.cycleFuel).1 s.config.id visited []
          v₁ (fun y hy => absurd hy (List.not_mem_nil y)) hc
      | false =>
        simp only [commitScan, hc] at h
        exact ih v₁ h

/-- When the commit scan comes back clean, no scanned step lies on a
cycle. -/
theorem commitScan_acyclic (w : Workflow) : ∀ steps visited,
    DfsInv w.depsOf visited [] → commitScan w steps visited = some false →
    ∀ s ∈ steps, ¬ Relation.TransGen (depRel w.depsOf) s.config.id s.config.id := by
  intro steps
  induction steps with
  | nil => intro visited _ _ s hs; exact absurd hs (List.not_mem_nil s)
  | cons t rest ih =>
    intro visited inv h s hs
    cases hc : checkCycle w.depsOf w.cycleFuel t.config.id visited [] with
    | none => simp [commitScan, hc] at h
    | some r =>
      obtain ⟨b, v₁⟩ := r
      cases b with
      | true => simp [commitScan, hc] at h
      | false =>
        simp only [commitScan, hc] at h
        obtain ⟨_, hblack, inv₁⟩ :=
          (checkCycle_inv w.depsOf w.cycleFuel).1 t.config.id visited [] v₁ inv hc
        rcases List.mem_cons.mp hs with hst | hrest
        · exact hst ▸ inv₁.2.2 t.config.id hblack
        · exact ih v₁ inv₁ h s hrest

/-- The DFS invariant holds trivially at the start of `commit`. -/
theorem dfsInv_init (d : String → List String) : DfsInv d [] [] :=
  ⟨fun y hy => absurd hy.1 (List.not_mem_nil y),
   fun y hy => absurd hy.1 (List.not_mem_nil y),
   fun y hy => absurd hy.1 (List.not_mem_nil y)⟩

/-- `needle` occurs at the start of `hay`. -/
def segAtStart : List Char → List Char → Bool
  | [], _ => true
  | _ :: _, [] => false
  | a :: as, b :: bs => a == b && segAtStart as bs

/-- `needle` occurs contiguously somewhere in `hay`. -/
def segSomewhere (needle : List Char) : List Char → Bool
  | [] => segAtStart needle []
  | b :: bs => segAtStart needle (b :: bs) || segSomewhere needle bs

/-- An error message "names" a step id when the id occurs as a substring of
the message. -/
def msgNames (msg id : String) : Bool :=
  segSomewhere id.data msg.data

/-- The builder invariant: every key of the dependency record is the id of a
registered step.  `createWorkflow` establishes it and every builder
operation preserves it (see the lemmas below), so it holds of every
workflow reaching `commit` through the public API. -/
def KeysRegistered (w : Workflow) : Prop :=
  ∀ k ∈ w.dependencies.map (fun e => e.1), k ∈ w.steps.map (fun s => s.config.id)

theorem keysRegistered_create (cfg : WorkflowConfig) :
    KeysRegistered (createWorkflow cfg) := by
  intro k hk
  simp [createWorkflow] at hk

theorem keysRegistered_after (w : Workflow) (r : String ⊕ List String)
    (h : KeysRegistered w) : KeysRegistered (w.after r) := h

/-- Pair membership gives key membership. -/
theorem mem_keys_of_pair {k : String} {b : List String}
    (m : List (String × List String)) (hb : (k, b) ∈ m) :
    k ∈ m.map (fun e => e.1) :=
  List.mem_map.mpr ⟨(k, b), hb, rfl⟩

/-- Keys added by `step` are the registered step's own id. -/
theorem addStep_keys (w : Workflow) (s : Step) (o : Option StepOptions) :
    ∀ k ∈ (w.addStep s o).dependencies.map (fun e => e.1),
      k = s.config.id ∨ k ∈ w.dependencies.map (fun e => e.1) := by
  intro k hk
  unfold Workflow.addStep at hk
  simp only at hk
  cases hlk : lookupKey w.dependencies s.config.id <;> rw [hlk] at hk <;>
  by_cases hct : currentDepTruthy w.currentDependency = true
  case pos =>
    rw [if_pos hct] at hk
    cases hcd : w.currentDependency <;> rw [hcd] at hk
    case none =>
      simp [setKey] at hk
      rcases hk with h | ⟨b, hb⟩
      exacts [Or.inl h, Or.inr (mem_keys_of_pair _ hb)]
    case some r =>
      cases r <;>
      · simp [setKey] at hk
        rcases hk with h | ⟨b, hb⟩
        exacts [Or.inl h, Or.inr (mem_keys_of_pair _ hb)]
  case neg =>
    rw [if_neg hct] at hk
    simp [setKey] at hk
    rcases hk with h | ⟨b, hb⟩
    exacts [Or.inl h, Or.inr (mem_keys_of_pair _ hb)]
  case pos =>
    rw [if_pos hct] at hk
    cases hcd : w.currentDependency <;> rw [hcd] at hk
    case none => exact Or.inr hk
    case some r =>
      cases r <;>
      · simp [setKey] at hk
        rcases hk with h | ⟨b, hb⟩
        exacts [Or.inl h, Or.inr (mem_keys_of_pair _ hb)]
  case neg =>
    rw [if_neg hct] at hk
    exact Or.inr hk

theorem keysRegistered_addStep (w : Workflow) (s : Step) (o : Option StepOptions)
    (h : KeysRegistered w) : KeysRegistered (w.addStep s o) := by
  intro k hk
  have hsteps : (w.addStep s o).steps = w.steps ++ [s] := rfl
  rcases addStep_keys w s o k hk with hid | hold
  · rw [hsteps, List.map_append]
    exact List.mem_append_right _ (by simp [hid])
  · rw [hsteps, List.map_append]
    exact List.mem_append_left _ (h k hold)

/-- C1 (amended): for every workflow satisfying the builder invariant that
all dependency keys are registered step ids — if no steps were added,
`commit` throws `'Workflow must have at least one step'`; if at least one
step exists and the dependency relation is acyclic, `commit` succeeds and
returns the definition; if the dependency relation contains a cycle
(self-loop or longer), `commit` throws the fixed message
`'Circular dependency detected in workflow'` — which, contrary to the
original claim, names no step (see `claim_C1_counterexample`). -/
theorem claim_C1_commit (w : Workflow)
    (hkeys : ∀ k ∈ w.dependencies.map (fun e => e.1),
      k ∈ w.steps.map (fun s => s.config.id)) :
    (w.steps = [] → w.commit = .error "Workflow must have at least one step") ∧
    (w.steps ≠ [] → (∀ z, ¬ Relation.TransGen (depRel w.depsOf) z z) →
      w.commit = .ok w) ∧
    ((∃ z, Relation.TransGen (depRel w.depsOf) z z) →
      w.commit = .error "Circular dependency detected in workflow") := by
  refine ⟨?_, ?_, ?_⟩
  · intro h
    simp [Workflow.commit, h]
  · intro hne hacyc
    have hlen : ¬ w.steps.length = 0 := fun h => hne (List.length_eq_zero.mp h)
    cases hsc : commitScan w w.steps [] with
    | none =>
      exact absurd hsc (commitScan_some w w.steps []
        (fun s hs => stepId_mem_univ w s hs)
        (fun y hy => absurd hy (List.not_mem_nil y)))
    | some b =>
      cases b with
      | true =>
        obtain ⟨z, hz⟩ := commitScan_sound w w.steps [] hsc
        exact absurd hz (hacyc z)
      | false => simp [Workflow.commit, hlen, hsc]
  · rintro ⟨z, hz⟩
    obtain ⟨c, hzc, _⟩ := Relation.TransGen.head'_iff.mp hz
    have hzid := hkeys z (edge_mem_keys w z c hzc)
    obtain ⟨s, hs, hsid⟩ := List.mem_map.mp hzid
    have hlen : ¬ w.steps.length = 0 := by
      intro h
      rw [List.length_eq_zero.mp h] at hs
      exact absurd hs (List.not_mem_nil s)
    cases hsc : commitScan w w.steps [] with
    | none => simp [Workflow.commit, hlen, hsc]
    | some b =>
      cases b with
      | true => simp [Workflow.commit, hlen, hsc]
      | false =>
        have hnc := commitScan_acyclic w w.steps []
          (dfsInv_init w.depsOf) hsc s hs
        rw [hsid] at hnc
        exact absurd hz hnc

/-- A workflow whose single step depends on itself. -/
def wSelfLoop : Workflow :=
  ((createWorkflow ⟨"wf", none⟩).after (.inl "s1")).addStep (mkStep "s1") none

/-- Counterexample to C1 as stated: on a one-step self-loop, `commit` does
throw on the cycle, but the error is the fixed message
`'Circular dependency detected in workflow'`, and the only step on the
cycle, `"s1"`, does not occur in that message — the error does not name a
step on the cycle. -/
theorem claim_C1_counterexample :
    wSelfLoop.commit = .error "Circular dependency detected in workflow" ∧
    wSelfLoop.steps.map (fun s => s.config.id) = ["s1"] ∧
    depRel wSelfLoop.depsOf "s1" "s1" ∧
    msgNames "Circular dependency detected in workflow" "s1" = false := by
  refine ⟨rfl, rfl, ?_, rfl⟩
  show "s1" ∈ wSelfLoop.depsOf "s1"
  show "s1" ∈ ["s1"]
  exact List.mem_singleton.mpr rfl

/-- A workflow with one independent step. -/
def wSingle : Workflow :=
  (createWorkflow ⟨"wf", none⟩).addStep (mkStep "a") none

/-- Witness for C1 at concrete inputs: the single-step acyclic workflow
commits successfully, and the empty workflow throws the empty-workflow
error. -/
theorem claim_C1_witness :
    wSingle.commit = .ok wSingle ∧
    (createWorkflow ⟨"wf", none⟩).commit
      = .error "Workflow must have at least one step" := by
  constructor
  · apply (claim_C1_commit wSingle (by decide)).2.1
      (by rw [show wSingle.steps = [mkStep "a"] from rfl]; exact List.cons_ne_nil _ _)
    intro z hz
    obtain ⟨c, hzc, _⟩ := Relation.TransGen.head'_iff.mp hz
    revert hzc
    show c ∈ wSingle.depsOf z → False
    by_cases hza : z = "a"
    · subst hza
      have hd : wSingle.depsOf "a" = [] := rfl
      rw [hd]
      exact fun h => absurd h (List.not_mem_nil c)
    · have hd : wSingle.depsOf z = [] := by
        unfold wSingle Workflow.depsOf lookupKey createWorkflow
        simp [Workflow.addStep, mkStep, createStep, setKey, List.find?, hza,
          Ne.symm hza]
      rw [hd]
      exact fun h => absurd h (List.not_mem_nil c)
  · exact (claim_C1_commit (createWorkflow ⟨"wf", none⟩) (by decide)).1 rfl

/-- The failure marker `{status: 'failed', error: message}` the scheduler
records when a step's work function throws. -/
def failedMarker (msg : String) : Value :=
  .obj [("status", .str "failed"), ("error", .str msg)]

/-- The per-run copies captured by `createRun` (`[...workflow.steps]`,
`{...workflow.dependencies}`, ...) plus the trigger payload of `run`. -/
structure RunCtx where
  steps : List Step
  dependencies : List (String × List String)
  conditions : List (String × StepCondition)
  variablesMap : List (String × VariableMapping)
  triggerData : Value

/-- Builds the run context from a workflow and trigger payload. -/
def RunCtx.ofWorkflow (w : Workflow) (triggerData : Value) : RunCtx :=
  ⟨w.steps, w.dependencies, w.conditions, w.variablesMap, triggerData⟩

/-- The scheduler's mutable bookkeeping: the results store and the three id
sets `executedSteps`, `pendingSteps`, `skippedSteps`. -/
structure RunState where
  results : Results
  executedSteps : List String
  pendingSteps : List String
  skippedSteps : List String

/-- Resolution of a `{step, path}` reference against the trigger (special
case `step === "trigger"`) or the results store. -/
def resolveRef (ctx : RunCtx) (results : Results) (refStep : String)
    (path : Option String) : Value :=
  if refStep = "trigger" then getValueByPath ctx.triggerData path
  else getValueByPath (readRes results refStep) path

/-- Computes the `input` for a step: from its variable mappings when
declared, else the first dependency's result, else `undefined`. -/
def buildInput (ctx : RunCtx) (results : Results) (deps : List String)
    (id : String) : Value :=
  match lookupKey ctx.variablesMap id with
  | some stepVars =>
    Value.obj (stepVars.map (fun e =>
      (e.1, match e.2 with
            | .ref r => resolveRef ctx results r.step r.path
            | .lit v => v)))
  | none =>
    match deps with
    | d0 :: _ => readRes results d0
    | [] => .undefined

/-- Runs one ready (and not skipped) step: resolve the input, invoke the
work function (applying its context writes), then either record its return
value or, in the `catch` branch, record the failure marker; either way the
step moves from pending to executed. -/
def execReadyStep (ctx : RunCtx) (st : RunState) (s : Step)
    (deps : List String) : RunState :=
  let input := buildInput ctx st.results deps s.config.id
  let out := s.execute input st.results
  let results1 := out.1.foldl (fun r e => setKey r e.1 e.2) st.results
  match out.2 with
  | .ok v =>
    { st with results := setKey results1 s.config.id v,
              executedSteps := s.config.id :: st.executedSteps,
              pendingSteps := st.pendingSteps.erase s.config.id }
  | .error msg =>
    { st with results := setKey results1 s.config.id (failedMarker msg),
              executedSteps := s.config.id :: st.executedSteps,
              pendingSteps := st.pendingSteps.erase s.config.id }

/-- The body of the `for (const step of steps)` scan for one step: skip ids
not pending, test readiness (`every` dependency executed or skipped),
evaluate the optional condition (a false condition skips the step), then
execute; `progress` is set on every advance. -/
def scanStep (ctx : RunCtx) (acc : RunState × Bool) (s : Step) :
    RunState × Bool :=
  let st := acc.1
  if s.config.id ∉ st.pendingSteps then acc
  else
    let deps := (lookupKey ctx.dependencies s.config.id).getD []
    let depsReady := deps.all
      (fun depId => depId ∈ st.executedSteps ∨ depId ∈ st.skippedSteps)
    if depsReady then
      match lookupKey ctx.conditions s.config.id with
      | some cond =>
        let refValue := resolveRef ctx st.results cond.ref.step cond.ref.path
        if evaluateCondition cond.query refValue then
          (execReadyStep ctx st s deps, true)
        else
          ({ st with skippedSteps := s.config.id :: st.skippedSteps,
                     pendingSteps := st.pendingSteps.erase s.config.id }, true)
      | none => (execReadyStep ctx st s deps, true)
    else acc

/-- One full scan over all steps (`progress` starts false). -/
def scan (ctx : RunCtx) (st : RunState) : RunState × Bool :=
  ctx.steps.foldl (scanStep ctx) (st, false)

/-- The deadlock message, with the remaining pending ids joined by `', '`
(insertion order, as `Array.from` of the `Set` yields). -/
def deadlockMsg (pending : List String) : String :=
  "Deadlock detected in workflow execution. Remaining steps: "
    ++ String.intercalate ", " pending

/-- The `while (pendingSteps.size > 0)` driver loop: scan; throw the
deadlock error when a scan advanced nothing while steps remain pending;
return the results when none remain.  `fuel` is an embedding artifact;
`runLoop_isSome` shows `pending.length + 1` suffices. -/
def runLoop (ctx : RunCtx) : Nat → RunState → Option (Except String RunState)
  | 0, _ => none
  | fuel + 1, st =>
    if st.pendingSteps = [] then some (.ok st)
    else
      let p := scan ctx st
      if p.2 = false ∧ p.1.pendingSteps ≠ [] then
        some (.error (deadlockMsg p.1.pendingSteps))
      else runLoop ctx fuel p.1

/-- First-occurrence deduplication with an explicit seen accumulator, the
order and content of `new Set(steps.map(step => step.config.id))` iterated
in insertion order. -/
def dedupFirstAux (seen : List String) : List String → List String
  | [] => []
  | x :: xs =>
    if x ∈ seen then dedupFirstAux seen xs
    else x :: dedupFirstAux (x :: seen) xs

/-- `new Set(l)` as a list in insertion order. -/
def dedupFirst (l : List String) : List String :=
  dedupFirstAux [] l

/-- `dedupFirstAux` yields elements of `l` outside `seen`, without
duplicates. -/
theorem dedupFirstAux_spec : ∀ (l seen : List String),
    (dedupFirstAux seen l).Nodup ∧
    (∀ x ∈ dedupFirstAux seen l, x ∈ l ∧ x ∉ seen) := by
  intro l
  induction l with
  | nil => intro seen; exact ⟨List.nodup_nil, fun x hx => absurd hx (List.not_mem_nil x)⟩
  | cons a l ih =>
    intro seen
    by_cases ha : a ∈ seen
    · simp only [dedupFirstAux, if_pos ha]
      obtain ⟨h1, h2⟩ := ih seen
      exact ⟨h1, fun x hx => ⟨List.mem_cons_of_mem a (h2 x hx).1, (h2 x hx).2⟩⟩
    · simp only [dedupFirstAux, if_neg ha]
      obtain ⟨h1, h2⟩ := ih (a :: seen)
      constructor
      · refine List.nodup_cons.mpr ⟨?_, h1⟩
        intro hmem
        exact (h2 a hmem).2 (List.mem_cons_self a seen)
      · intro x hx
        rcases List.mem_cons.mp hx with h | h
        · exact ⟨h ▸ List.mem_cons_self a l, h ▸ ha⟩
        · have := h2 x h
          exact ⟨List.mem_cons_of_mem a this.1,
            fun hs => this.2 (List.mem_cons_of_mem a hs)⟩

/-- `dedupFirst` is duplicate-free. -/
theorem dedupFirst_nodup (l : List String) : (dedupFirst l).Nodup :=
  (dedupFirstAux_spec l []).1

/-- `dedupFirst` only contains elements of the original list. -/
theorem dedupFirst_subset (l : List String) :
    ∀ x ∈ dedupFirst l, x ∈ l :=
  fun x hx => ((dedupFirstAux_spec l []).2 x hx).1

/-- The scheduler state at the top of `run`: the results store seeded with
the trigger entry, all step ids pending (a `Set`, hence deduplicated in
insertion order), the executed and skipped sets empty. -/
def initState (ctx : RunCtx) : RunState :=
  ⟨[("trigger", ctx.triggerData)], [],
   dedupFirst (ctx.steps.map (fun s => s.config.id)), []⟩

/-- Embeds `createRun().run({triggerData})`: validate the trigger when a
schema exists (zod's `parse` throws an `Error`, re-thrown as
`Invalid trigger data: ...`), then drive the scan loop and return
`{results}`.  The `getD` default is unreachable (`runLoop_isSome`). -/
def runWorkflow (w : Workflow) (triggerData : Value) : Except String Results :=
  let validated : Option String :=
    match w.config.triggerSchema with
    | some validator => validator triggerData
    | none => none
  match validated with
  | some msg => .error ("Invalid trigger data: " ++ msg)
  | none =>
    let ctx := RunCtx.ofWorkflow w triggerData
    let st0 := initState ctx
    match (runLoop ctx (st0.pendingSteps.length + 1) st0).getD
        (.error "unreachable: loop fuel exhausted") with
    | .ok st => .ok st.results
    | .error msg => .error msg

/-- A write makes its own key readable. -/
theorem lookup_setKey_same {α : Type} (m : List (String × α)) (k : String)
    (v : α) : lookupKey (setKey m k v) k = some v := by
  simp [lookupKey, setKey, List.find?]

/-- A write leaves other keys untouched. -/
theorem lookup_setKey_other {α : Type} (m : List (String × α)) (k k' : String)
    (v : α) (h : k' ≠ k) : lookupKey (setKey m k v) k' = lookupKey m k' := by
  simp only [lookupKey, setKey, List.find?]
  rw [decide_eq_false (fun hh => h hh.symm)]

/-- Writes never remove present keys. -/
theorem lookup_setKey_isSome {α : Type} (m : List (String × α)) (k k' : String)
    (v : α) (h : lookupKey m k' ≠ none) :
    lookupKey (setKey m k v) k' ≠ none := by
  by_cases hk : k' = k
  · subst hk; rw [lookup_setKey_same]; simp
  · rw [lookup_setKey_other m k k' v hk]; exact h

/-- `execReadyStep` always records the executed id and erases it from
pending; `skippedSteps` is untouched, whether the work function returned or
threw. -/
theorem execReadyStep_shape (ctx : RunCtx) (st : RunState) (s : Step)
    (dps : List String) :
    (execReadyStep ctx st s dps).pendingSteps
        = st.pendingSteps.erase s.config.id ∧
    (execReadyStep ctx st s dps).executedSteps
        = s.config.id :: st.executedSteps ∧
    (execReadyStep ctx st s dps).skippedSteps = st.skippedSteps := by
  simp only [execReadyStep]
  split
  · exact ⟨rfl, rfl, rfl⟩
  · exact ⟨rfl, rfl, rfl⟩

/-- Shape of one scan-step: either nothing happens (id not pending, or
dependencies unsettled), or the id advances out of `pending` — into
`executedSteps` (after running, succeeded or failed) or `skippedSteps`
(condition false) — with `progress` set. -/
theorem scanStep_shape (ctx : RunCtx) (acc : RunState × Bool) (s : Step) :
    scanStep ctx acc s = acc ∨
    (s.config.id ∈ acc.1.pendingSteps ∧ ∃ st',
      scanStep ctx acc s = (st', true) ∧
      st'.pendingSteps = acc.1.pendingSteps.erase s.config.id ∧
      (∀ e ∈ acc.1.executedSteps, e ∈ st'.executedSteps) ∧
      (∀ e ∈ acc.1.skippedSteps, e ∈ st'.skippedSteps) ∧
      (s.config.id ∈ st'.executedSteps ∨ s.config.id ∈ st'.skippedSteps)) := by
  have hex : ∀ dps, (execReadyStep ctx acc.1 s dps).pendingSteps
        = acc.1.pendingSteps.erase s.config.id ∧
      (∀ e ∈ acc.1.executedSteps, e ∈ (execReadyStep ctx acc.1 s dps).executedSteps) ∧
      (∀ e ∈ acc.1.skippedSteps, e ∈ (execReadyStep ctx acc.1 s dps).skippedSteps) ∧
      s.config.id ∈ (execReadyStep ctx acc.1 s dps).executedSteps := by
    intro dps
    obtain ⟨h1, h2, h3⟩ := execReadyStep_shape ctx acc.1 s dps
    refine ⟨h1, ?_, ?_, ?_⟩
    · intro e he; rw [h2]; exact List.mem_cons_of_mem _ he
    · intro e he; rw [h3]; exact he
    · rw [h2]; exact List.mem_cons_self _ _
  simp only [scanStep]
  split
  case isTrue h => exact Or.inl rfl
  case isFalse h =>
    have hp : s.config.id ∈ acc.1.pendingSteps := not_not.mp h
    split
    case isTrue hr =>
      split
      case h_1 cond hC =>
        split
        case isTrue hEval =>
          obtain ⟨h1, h2, h3, h4⟩ := hex _
          exact Or.inr ⟨hp, _, rfl, h1, h2, h3, Or.inl h4⟩
        case isFalse hEval =>
          exact Or.inr ⟨hp, _, rfl, rfl, fun e he => he,
            fun e he => List.mem_cons_of_mem _ he,
            Or.inr (List.mem_cons_self _ _)⟩
      case h_2 hC =>
        obtain ⟨h1, h2, h3, h4⟩ := hex _
        exact Or.inr ⟨hp, _, rfl, h1, h2, h3, Or.inl h4⟩
    case isFalse hr => exact Or.inl rfl

/-- A scan-step that reports no progress changed nothing. -/
theorem scanStep_no_adv (ctx : RunCtx) (acc : RunState × Bool) (s : Step)
    (h : (scanStep ctx acc s).2 = false) : scanStep ctx acc s = acc := by
  rcases scanStep_shape ctx acc s with heq | ⟨_, st', heq, _⟩
  · exact heq
  · rw [heq] at h; simp at h

/-- The progress flag is monotone along a scan. -/
theorem scanStep_flag (ctx : RunCtx) (acc : RunState × Bool) (s : Step)
    (h : acc.2 = true) : (scanStep ctx acc s).2 = true := by
  rcases scanStep_shape ctx acc s with heq | ⟨_, st', heq, _⟩
  · rw [heq]; exact h
  · rw [heq]

/-- One scan-step only removes pending ids. -/
theorem scanStep_pending_sub (ctx : RunCtx) (acc : RunState × Bool) (s : Step) :
    (scanStep ctx acc s).1.pendingSteps.Sublist acc.1.pendingSteps := by
  rcases scanStep_shape ctx acc s with heq | ⟨_, st', heq, hpend, _⟩
  · rw [heq]
  · rw [heq]; rw [hpend]; exact List.erase_sublist _ _

/-- Executed ids persist through one scan-step. -/
theorem scanStep_exec_mono (ctx : RunCtx) (acc : RunState × Bool) (s : Step) :
    ∀ e ∈ acc.1.executedSteps, e ∈ (scanStep ctx acc s).1.executedSteps := by
  rcases scanStep_shape ctx acc s with heq | ⟨_, st', heq, _, hex, _⟩
  · rw [heq]; exact fun e he => he
  · rw [heq]; exact hex

/-- Skipped ids persist through one scan-step. -/
theorem scanStep_skip_mono (ctx : RunCtx) (acc : RunState × Bool) (s : Step) :
    ∀ e ∈ acc.1.skippedSteps, e ∈ (scanStep ctx acc s).1.skippedSteps := by
  rcases scanStep_shape ctx acc s with heq | ⟨_, st', heq, _, _, hsk, _⟩
  · rw [heq]; exact fun e he => he
  · rw [heq]; exact hsk

/-- A scan-step reporting fresh progress strictly shrank the pending set. -/
theorem scanStep_decrease (ctx : RunCtx) (acc : RunState × Bool) (s : Step)
    (h : (scanStep ctx acc s).2 = true) :
    acc.2 = true ∨
      (scanStep ctx acc s).1.pendingSteps.length
        < acc.1.pendingSteps.length := by
  rcases scanStep_shape ctx acc s with heq | ⟨hp, st', heq, hpend, _⟩
  · rw [heq] at h; exact Or.inl h
  · right
    rw [heq]
    simp only
    rw [hpend, List.length_erase_of_mem hp]
    have := List.length_pos_of_mem hp
    omega

/-- The fold of `scanStep` over a step list: pending only shrinks, executed
and skipped only grow, the progress flag is monotone, no progress means no
change at all, and fresh progress strictly shrinks pending. -/
theorem scanFold_shape (ctx : RunCtx) : ∀ (steps : List Step)
    (acc : RunState × Bool),
    (steps.foldl (scanStep ctx) acc).1.pendingSteps.Sublist
        acc.1.pendingSteps ∧
    (∀ e ∈ acc.1.executedSteps,
      e ∈ (steps.foldl (scanStep ctx) acc).1.executedSteps) ∧
    (∀ e ∈ acc.1.skippedSteps,
      e ∈ (steps.foldl (scanStep ctx) acc).1.skippedSteps) ∧
    (acc.2 = true → (steps.foldl (scanStep ctx) acc).2 = true) ∧
    ((steps.foldl (scanStep ctx) acc).2 = false →
      steps.foldl (scanStep ctx) acc = acc) ∧
    ((steps.foldl (scanStep ctx) acc).2 = true →
      acc.2 = true ∨
        (steps.foldl (scanStep ctx) acc).1.pendingSteps.length
          < acc.1.pendingSteps.length) := by
  intro steps
  induction steps with
  | nil =>
    intro acc
    exact ⟨List.Sublist.refl _, fun e he => he, fun e he => he,
      fun h => h, fun _ => rfl, fun h => Or.inl h⟩
  | cons s rest ih =>
    intro acc
    obtain ⟨ihsub, ihex, ihsk, ihflag, ihid, ihdec⟩ := ih (scanStep ctx acc s)
    simp only [List.foldl_cons]
    refine ⟨?_, ?_, ?_, ?_, ?_, ?_⟩
    · exact ihsub.trans (scanStep_pending_sub ctx acc s)
    · exact fun e he => ihex e (scanStep_exec_mono ctx acc s e he)
    · exact fun e he => ihsk e (scanStep_skip_mono ctx acc s e he)
    · intro h; exact ihflag (scanStep_flag ctx acc s h)
    · intro h
      have hstep : (scanStep ctx acc s).2 = false := by
        by_contra hzz
        have := ihflag (by revert hzz; cases (scanStep ctx acc s).2 <;> simp)
        rw [this] at h; cases h
      have heq := scanStep_no_adv ctx acc s hstep
      rw [heq] at ihid h ⊢
      exact ihid h
    · intro h
      cases hstep : (scanStep ctx acc s).2 with
      | false =>
        have heq := scanStep_no_adv ctx acc s hstep
        rw [heq] at ihdec h ⊢
        exact ihdec h
      | true =>
        rcases scanStep_decrease ctx acc s hstep with hacc | hlt
        · exact Or.inl hacc
        · right
          have hle := ihsub.length_le
          omega

/-- A scan that advances nothing leaves the state untouched. -/
theorem scan_no_progress (ctx : RunCtx) (st : RunState)
    (h : (scan ctx st).2 = false) : (scan ctx st).1 = st := by
  have := (scanFold_shape ctx ctx.steps (st, false)).2.2.2.2.1 h
  unfold scan at h ⊢
  rw [this]

/-- A scan that advanced something strictly shrank the pending set. -/
theorem scan_progress_lt (ctx : RunCtx) (st : RunState)
    (h : (scan ctx st).2 = true) :
    (scan ctx st).1.pendingSteps.length < st.pendingSteps.length := by
  rcases (scanFold_shape ctx ctx.steps (st, false)).2.2.2.2.2 h with hf | hlt
  · cases hf
  · exact hlt

/-- `pending.length + 1` scans always suffice: the loop never hits the fuel
bound. -/
theorem runLoop_isSome (ctx : RunCtx) : ∀ (fuel : Nat) (st : RunState),
    st.pendingSteps.length < fuel → runLoop ctx fuel st ≠ none := by
  intro fuel
  induction fuel with
  | zero => intro st h; omega
  | succ fuel ih =>
    intro st h
    by_cases hp : st.pendingSteps = []
    · simp [runLoop, hp]
    · simp only [runLoop, if_neg hp]
      by_cases hdl : (scan ctx st).2 = false ∧ (scan ctx st).1.pendingSteps ≠ []
      · rw [if_pos hdl]; simp
      · rw [if_neg hdl]
        cases hflag : (scan ctx st).2 with
        | true =>
          have := scan_progress_lt ctx st hflag
          exact ih (scan ctx st).1 (by omega)
        | false =>
          have hid := scan_no_progress ctx st hflag
          exfalso
          exact hdl ⟨hflag, by rw [hid]; exact hp⟩

/-- C8: whenever a full scan advances no step while pending steps remain
(as happens when a pending step's dependency list names an unregistered
id), the driver loop raises the explicit deadlock error — it neither loops
on nor returns a results map. -/
theorem claim_C8_deadlock (ctx : RunCtx) (st : RunState) (fuel : Nat)
    (hpend : st.pendingSteps ≠ []) (hscan : (scan ctx st).2 = false) :
    runLoop ctx (fuel + 1) st
      = some (.error (deadlockMsg st.pendingSteps)) := by
  have hid := scan_no_progress ctx st hscan
  simp only [runLoop, if_neg hpend]
  rw [if_pos ⟨hscan, by rw [hid]; exact hpend⟩, hid]

/-- A workflow whose only step depends on an unregistered id, for the C8
witness. -/
def wGhostDep : Workflow :=
  ((createWorkflow ⟨"wf", none⟩).after (.inl "ghost")).addStep (mkStep "a") none

/-- Witness for C8 at a concrete input: with step `a` depending on the
unregistered id `ghost`, the first scan advances nothing, the loop reports
the deadlock naming the remaining step, and the whole run surfaces it. -/
theorem claim_C8_witness :
    runLoop (RunCtx.ofWorkflow wGhostDep (.num 0)) 2
        (initState (RunCtx.ofWorkflow wGhostDep (.num 0)))
      = some (.error
          "Deadlock detected in workflow execution. Remaining steps: a") ∧
    runWorkflow wGhostDep (.num 0)
      = .error "Deadlock detected in workflow execution. Remaining steps: a" := by
  constructor
  · have h := claim_C8_deadlock (RunCtx.ofWorkflow wGhostDep (.num 0))
      (initState (RunCtx.ofWorkflow wGhostDep (.num 0))) 1
      (by rw [show (initState (RunCtx.ofWorkflow wGhostDep (.num 0))).pendingSteps
            = ["a"] from rfl]; exact List.cons_ne_nil _ _)
      rfl
    exact h
  · rfl

/-- C4: for every workflow with a trigger schema and every payload the
schema rejects (zod's `parse` throws an `Error` whose message is re-thrown),
the run returns the `Invalid trigger data` error immediately: the result is
this error for arbitrary steps, dependencies, conditions and variables, so
no step's work function is consulted and the results store (which would be
seeded afterwards) is never created. -/
theorem claim_C4_trigger_validation (w : Workflow)
    (validator : Value → Option String) (trigger : Value) (msg : String)
    (hschema : w.config.triggerSchema = some validator)
    (hfail : validator trigger = some msg) :
    runWorkflow w trigger = .error ("Invalid trigger data: " ++ msg) := by
  simp [runWorkflow, hschema, hfail]

/-- A workflow whose schema rejects everything, for the C4 witness. -/
def wRejectAll : Workflow :=
  (createWorkflow ⟨"wf", some (fun _ => some "Required")⟩).addStep
    (mkStep "a") none

/-- Witness for C4 at a concrete input. -/
theorem claim_C4_witness :
    runWorkflow wRejectAll (.num 1)
      = .error "Invalid trigger data: Required" :=
  claim_C4_trigger_validation wRejectAll (fun _ => some "Required")
    (.num 1) "Required" rfl rfl

/-- When a step's work function throws, the scheduler stores the failure
marker under the step's id and settles the step as executed. -/
theorem execReadyStep_failed (ctx : RunCtx) (st : RunState) (s : Step)
    (dps : List String) (msg : String)
    (h : (s.execute (buildInput ctx st.results dps s.config.id)
        st.results).2 = .error msg) :
    lookupKey (execReadyStep ctx st s dps).results s.config.id
        = some (failedMarker msg) ∧
    (execReadyStep ctx st s dps).executedSteps
        = s.config.id :: st.executedSteps ∧
    (execReadyStep ctx st s dps).pendingSteps
        = st.pendingSteps.erase s.config.id := by
  simp only [execReadyStep]
  split
  case h_1 v heq =>
    rw [h] at heq
    simp at heq
  case h_2 msg1 heq =>
    rw [h] at heq
    have : msg1 = msg := by
      have := heq.symm
      simpa using this
    subst this
    exact ⟨lookup_setKey_same _ _ _, rfl, rfl⟩

/-- A pending step whose dependencies are all settled is advanced by
`scanStep` when the scan reaches it. -/
theorem scanStep_advances (ctx : RunCtx) (acc : RunState × Bool) (s : Step)
    (hp : s.config.id ∈ acc.1.pendingSteps)
    (hready : (((lookupKey ctx.dependencies s.config.id).getD []).all
      (fun depId => depId ∈ acc.1.executedSteps ∨ depId ∈ acc.1.skippedSteps))
        = true) :
    (scanStep ctx acc s).1.pendingSteps
      = acc.1.pendingSteps.erase s.config.id := by
  simp only [scanStep]
  rw [if_neg (not_not_intro hp), if_pos hready]
  split
  case h_1 cond hC =>
    split
    case isTrue hEval => exact (execReadyStep_shape ctx acc.1 s _).1
    case isFalse hEval => rfl
  case h_2 hC => exact (execReadyStep_shape ctx acc.1 s _).1

/-- Settledness is preserved as a scan proceeds: once every dependency of a
step is executed or skipped it stays so. -/
theorem ready_mono (ctx : RunCtx) (acc : RunState × Bool) (s : Step)
    (deps : List String)
    (h : (deps.all (fun depId =>
      depId ∈ acc.1.executedSteps ∨ depId ∈ acc.1.skippedSteps)) = true)
    (t : Step) :
    (deps.all (fun depId =>
      depId ∈ (scanStep ctx acc t).1.executedSteps ∨
        depId ∈ (scanStep ctx acc t).1.skippedSteps)) = true := by
  rw [List.all_eq_true] at h ⊢
  intro d hd
  have hdp := h d hd
  rw [decide_eq_true_eq] at hdp
  rw [decide_eq_true_eq]
  rcases hdp with he | hs
  · exact Or.inl (scanStep_exec_mono ctx acc t d he)
  · exact Or.inr (scanStep_skip_mono ctx acc t d hs)

/-- A scan advances every step that is pending with all dependencies
settled at its start: after the fold, the id is no longer pending. -/
theorem scanFold_advances_ready (ctx : RunCtx) : ∀ (steps : List Step)
    (acc : RunState × Bool) (s : Step), s ∈ steps →
    acc.1.pendingSteps.Nodup →
    s.config.id ∈ acc.1.pendingSteps →
    (((lookupKey ctx.dependencies s.config.id).getD []).all
      (fun depId => depId ∈ acc.1.executedSteps ∨ depId ∈ acc.1.skippedSteps))
        = true →
    s.config.id ∉ (steps.foldl (scanStep ctx) acc).1.pendingSteps := by
  intro steps
  induction steps with
  | nil => intro acc s hs; exact absurd hs (List.not_mem_nil s)
  | cons t rest ih =>
    intro acc s hs hnd hp hready
    simp only [List.foldl_cons]
    have hnd1 : (scanStep ctx acc t).1.pendingSteps.Nodup :=
      (scanStep_pending_sub ctx acc t).nodup hnd
    rcases List.mem_cons.mp hs with hst | hrest
    · subst hst
      have hadv := scanStep_advances ctx acc s hp hready
      have hnotp : s.config.id ∉ (scanStep ctx acc s).1.pendingSteps := by
        rw [hadv]
        exact hnd.not_mem_erase
      intro hmem
      exact hnotp ((scanFold_shape ctx rest (scanStep ctx acc s)).1.subset hmem)
    · by_cases hstill : s.config.id ∈ (scanStep ctx acc t).1.pendingSteps
      · exact ih (scanStep ctx acc t) s hrest hnd1 hstill
          (ready_mono ctx acc s _ hready t)
      · intro hmem
        exact hstill ((scanFold_shape ctx rest (scanStep ctx acc t)).1.subset hmem)

/-- C3: a throwing work function is recovered locally and does not block the
graph.  First conjunct: the scheduler records `{status: 'failed', error:
message}` under the step's id, marks it executed (settled) and removes it
from pending — the run is not aborted, the scan continues.  Second conjunct:
readiness counts executed (including failed) and skipped dependencies as
settled, so every pending step whose dependencies are all settled — for
instance because a failed predecessor is in `executedSteps` — leaves
`pending` during the next full scan. -/
theorem claim_C3_failure_contained :
    (∀ (ctx : RunCtx) (st : RunState) (s : Step) (dps : List String)
      (msg : String),
      (s.execute (buildInput ctx st.results dps s.config.id)
          st.results).2 = .error msg →
      lookupKey (execReadyStep ctx st s dps).results s.config.id
          = some (failedMarker msg) ∧
      (execReadyStep ctx st s dps).executedSteps
          = s.config.id :: st.executedSteps ∧
      (execReadyStep ctx st s dps).pendingSteps
          = st.pendingSteps.erase s.config.id) ∧
    (∀ (ctx : RunCtx) (st : RunState) (s : Step), s ∈ ctx.steps →
      st.pendingSteps.Nodup →
      s.config.id ∈ st.pendingSteps →
      (((lookupKey ctx.dependencies s.config.id).getD []).all
        (fun depId => depId ∈ st.executedSteps ∨ depId ∈ st.skippedSteps))
          = true →
      s.config.id ∉ (scan ctx st).1.pendingSteps) :=
  ⟨execReadyStep_failed,
   fun ctx st s hs hnd hp hready =>
     scanFold_advances_ready ctx ctx.steps (st, false) s hs hnd hp hready⟩

/-- A step that always throws `boom`. -/
def failingStep : Step :=
  createStep ⟨"r", "always throws", none, fun _ _ => ([], .error "boom")⟩

/-- A step that returns its input. -/
def downstreamStep : Step :=
  createStep ⟨"d", "echoes input", none, fun inp _ => ([], .ok inp)⟩

/-- `d` depends on the always-failing `r`. -/
def wContained : Workflow :=
  (((createWorkflow ⟨"wf", none⟩).addStep failingStep none).after
    (.inl "r")).addStep downstreamStep none

/-- The run context of `wContained`. -/
def ctxContained : RunCtx := RunCtx.ofWorkflow wContained (.num 0)

/-- The scheduler state after `r` failed: marker recorded, `r` executed,
only `d` pending. -/
def stAfterFail : RunState :=
  ⟨[("r", failedMarker "boom"), ("trigger", .num 0)], ["r"], ["d"], []⟩

/-- Witness for C3 at concrete inputs: executing the throwing step `r`
records the failure marker under `"r"`, and with `r` settled as executed the
downstream `d` leaves pending in the next scan. -/
theorem claim_C3_witness :
    lookupKey (execReadyStep ctxContained (initState ctxContained)
        failingStep []).results "r" = some (failedMarker "boom") ∧
    "d" ∉ (scan ctxContained stAfterFail).1.pendingSteps := by
  constructor
  · exact (claim_C3_failure_contained.1 ctxContained (initState ctxContained)
      failingStep [] "boom" rfl).1
  · exact claim_C3_failure_contained.2 ctxContained stAfterFail downstreamStep
      (by rw [show ctxContained.steps = [failingStep, downstreamStep] from rfl]
          exact List.mem_cons_of_mem _ (List.mem_cons_self _ _))
      (by decide) (by decide) rfl

/-- With a work function that performs no context writes, executing a step
only adds the step's own key to the results store. -/
theorem execReadyStep_results_pure (ctx : RunCtx) (st : RunState) (s : Step)
    (dps : List String) (hpure : ∀ inp r, (s.execute inp r).1 = []) :
    ∃ v, (execReadyStep ctx st s dps).results
      = setKey st.results s.config.id v := by
  simp only [execReadyStep, hpure, List.foldl_nil]
  split
  · exact ⟨_, rfl⟩
  · exact ⟨_, rfl⟩

/-- Shape of one scan-step when the step writes nothing through the
context: no change, or the id advances with either its own single results
write (executed, succeeded or failed) or a skip record. -/
theorem scanStep_shape_pure (ctx : RunCtx) (acc : RunState × Bool) (s : Step)
    (hpure : ∀ inp r, (s.execute inp r).1 = []) :
    scanStep ctx acc s = acc ∨
    (s.config.id ∈ acc.1.pendingSteps ∧ ∃ st',
      scanStep ctx acc s = (st', true) ∧
      st'.pendingSteps = acc.1.pendingSteps.erase s.config.id ∧
      ((∃ v, st'.results = setKey acc.1.results s.config.id v ∧
         st'.executedSteps = s.config.id :: acc.1.executedSteps ∧
         st'.skippedSteps = acc.1.skippedSteps) ∨
       (st'.results = acc.1.results ∧
         st'.executedSteps = acc.1.executedSteps ∧
         st'.skippedSteps = s.config.id :: acc.1.skippedSteps))) := by
  have hex : ∀ dps,
      (execReadyStep ctx acc.1 s dps).pendingSteps
          = acc.1.pendingSteps.erase s.config.id ∧
      (∃ v, (execReadyStep ctx acc.1 s dps).results
          = setKey acc.1.results s.config.id v ∧
        (execReadyStep ctx acc.1 s dps).executedSteps
          = s.config.id :: acc.1.executedSteps ∧
        (execReadyStep ctx acc.1 s dps).skippedSteps
          = acc.1.skippedSteps) := by
    intro dps
    obtain ⟨h1, h2, h3⟩ := execReadyStep_shape ctx acc.1 s dps
    obtain ⟨v, hres⟩ := execReadyStep_results_pure ctx acc.1 s dps hpure
    exact ⟨h1, v, hres, h2, h3⟩
  simp only [scanStep]
  split
  case isTrue h => exact Or.inl rfl
  case isFalse h =>
    have hp : s.config.id ∈ acc.1.pendingSteps := not_not.mp h
    split
    case isTrue hr =>
      split
      case h_1 cond hC =>
        split
        case isTrue hEval =>
          obtain ⟨h1, hv⟩ := hex ((lookupKey ctx.dependencies s.config.id).getD [])
          exact Or.inr ⟨hp, _, rfl, h1, Or.inl hv⟩
        case isFalse hEval =>
          exact Or.inr ⟨hp, _, rfl, rfl, Or.inr ⟨rfl, rfl, rfl⟩⟩
      case h_2 hC =>
        obtain ⟨h1, hv⟩ := hex ((lookupKey ctx.dependencies s.config.id).getD [])
        exact Or.inr ⟨hp, _, rfl, h1, Or.inl hv⟩
    case isFalse hr => exact Or.inl rfl

/-- The bookkeeping invariant behind C2: pending ids are duplicate-free and
fresh; the trigger entry is present; every executed id has a results entry;
every results entry belongs to the trigger or an executed step; skipped and
pending ids have no entry of their own. -/
def C2Inv (st : RunState) : Prop :=
  st.pendingSteps.Nodup ∧
  lookupKey st.results "trigger" ≠ none ∧
  (∀ id ∈ st.executedSteps, lookupKey st.results id ≠ none) ∧
  (∀ k, lookupKey st.results k ≠ none → k = "trigger" ∨ k ∈ st.executedSteps) ∧
  (∀ id ∈ st.skippedSteps, id ∉ st.executedSteps ∧ id ≠ "trigger") ∧
  (∀ id ∈ st.pendingSteps,
    id ∉ st.executedSteps ∧ id ∉ st.skippedSteps ∧ id ≠ "trigger")

/-- One scan-step preserves `C2Inv` when the step writes nothing through the
context. -/
theorem scanStep_c2inv (ctx : RunCtx) (acc : RunState × Bool) (s : Step)
    (hpure : ∀ inp r, (s.execute inp r).1 = [])
    (hinv : C2Inv acc.1) : C2Inv (scanStep ctx acc s).1 := by
  obtain ⟨hnd, htr, hex, hkeys, hsk, hpen⟩ := hinv
  rcases scanStep_shape_pure ctx acc s hpure with heq |
    ⟨hp, st', heq, hpend, hcase⟩
  · rw [heq]; exact ⟨hnd, htr, hex, hkeys, hsk, hpen⟩
  · rw [heq]
    have hid := hpen s.config.id hp
    have hndE : (acc.1.pendingSteps.erase s.config.id).Nodup :=
      (List.erase_sublist _ _).nodup hnd
    have hpenE : ∀ id ∈ acc.1.pendingSteps.erase s.config.id,
        id ≠ s.config.id ∧ id ∈ acc.1.pendingSteps := by
      intro id hmem
      have := (List.Nodup.mem_erase_iff hnd).mp hmem
      exact ⟨this.1, this.2⟩
    rcases hcase with ⟨v, hres, hexec, hskip⟩ | ⟨hres, hexec, hskip⟩
    · -- executed (succeeded or failed)
      refine ⟨hpend ▸ hndE, ?_, ?_, ?_, ?_, ?_⟩
      · rw [hres]
        exact lookup_setKey_isSome _ _ _ _ htr
      · intro id hmem
        rw [hexec] at hmem
        rcases List.mem_cons.mp hmem with hh | hh
        · subst hh
          rw [hres, lookup_setKey_same]
          simp
        · rw [hres]
          exact lookup_setKey_isSome _ _ _ _ (hex id hh)
      · intro k hk
        rw [hres] at hk
        by_cases hks : k = s.config.id
        · subst hks
          rw [hexec]
          exact Or.inr (List.mem_cons_self _ _)
        · rw [lookup_setKey_other _ _ _ _ hks] at hk
          rcases hkeys k hk with hh | hh
          · exact Or.inl hh
          · rw [hexec]
            exact Or.inr (List.mem_cons_of_mem _ hh)
      · intro id hmem
        rw [hskip] at hmem
        have hold := hsk id hmem
        refine ⟨?_, hold.2⟩
        rw [hexec]
        intro hcc
        rcases List.mem_cons.mp hcc with hh | hh
        · exact hid.2.1 (hh ▸ hmem)
        · exact hold.1 hh
      · intro id hmem
        rw [hpend] at hmem
        obtain ⟨hne, hmem'⟩ := hpenE id hmem
        obtain ⟨h1, h2, h3⟩ := hpen id hmem'
        refine ⟨?_, hskip ▸ h2, h3⟩
        rw [hexec]
        intro hcc
        rcases List.mem_cons.mp hcc with hh | hh
        · exact hne hh
        · exact h1 hh
    · -- skipped
      refine ⟨hpend ▸ hndE, hres ▸ htr, ?_, ?_, ?_, ?_⟩
      · intro id hmem
        rw [hexec] at hmem
        rw [hres]
        exact hex id hmem
      · intro k hk
        rw [hres] at hk
        rw [hexec]
        exact hkeys k hk
      · intro id hmem
        rw [hskip] at hmem
        rw [hexec]
        rcases List.mem_cons.mp hmem with hh | hh
        · subst hh
          exact ⟨hid.1, hid.2.2⟩
        · exact hsk id hh
      · intro id hmem
        rw [hpend] at hmem
        obtain ⟨hne, hmem'⟩ := hpenE id hmem
        obtain ⟨h1, h2, h3⟩ := hpen id hmem'
        refine ⟨hexec ▸ h1, ?_, h3⟩
        rw [hskip]
        intro hcc
        rcases List.mem_cons.mp hcc with hh | hh
        · exact hne hh
        · exact h2 hh

/-- A full scan preserves `C2Inv` when all steps write nothing through the
context. -/
theorem scanFold_c2inv (ctx : RunCtx) : ∀ (steps : List Step)
    (acc : RunState × Bool),
    (∀ s ∈ steps, ∀ inp r, (s.execute inp r).1 = []) →
    C2Inv acc.1 → C2Inv (steps.foldl (scanStep ctx) acc).1 := by
  intro steps
  induction steps with
  | nil => intro acc _ hinv; exact hinv
  | cons s rest ih =>
    intro acc hpure hinv
    simp only [List.foldl_cons]
    exact ih (scanStep ctx acc s)
      (fun t ht => hpure t (List.mem_cons_of_mem s ht))
      (scanStep_c2inv ctx acc s (hpure s (List.mem_cons_self s rest)) hinv)

/-- The driver loop preserves `C2Inv` up to a normal return, which happens
exactly with an empty pending set. -/
theorem runLoop_c2inv (ctx : RunCtx)
    (hpure : ∀ s ∈ ctx.steps, ∀ inp r, (s.execute inp r).1 = []) :
    ∀ (fuel : Nat) (st stF : RunState), C2Inv st →
    runLoop ctx fuel st = some (.ok stF) →
    C2Inv stF ∧ stF.pendingSteps = [] := by
  intro fuel
  induction fuel with
  | zero => intro st stF _ h; simp [runLoop] at h
  | succ fuel ih =>
    intro st stF hinv h
    by_cases hp : st.pendingSteps = []
    · simp only [runLoop, if_pos hp, Option.some.injEq, Except.ok.injEq] at h
      exact h ▸ ⟨hinv, hp⟩
    · simp only [runLoop, if_neg hp] at h
      by_cases hdl : (scan ctx st).2 = false ∧ (scan ctx st).1.pendingSteps ≠ []
      · rw [if_pos hdl] at h
        simp at h
      · rw [if_neg hdl] at h
        exact ih (scan ctx st).1 stF
          (scanFold_c2inv ctx ctx.steps (st, false) hpure hinv) h

/-- `C2Inv` holds at the start of every run whose steps do not use the id
`trigger`. -/
theorem initState_c2inv (ctx : RunCtx)
    (htrig : "trigger" ∉ ctx.steps.map (fun s => s.config.id)) :
    C2Inv (initState ctx) := by
  refine ⟨dedupFirst_nodup _, ?_, ?_, ?_, ?_, ?_⟩
  · simp [initState, lookupKey, List.find?]
  · intro id hmem; exact absurd hmem (List.not_mem_nil id)
  · intro k hk
    left
    simp only [initState, lookupKey, List.find?] at hk
    by_cases hkt : ("trigger" : String) = k
    · exact hkt.symm
    · rw [decide_eq_false hkt] at hk
      simp at hk
  · intro id hmem; exact absurd hmem (List.not_mem_nil id)
  · intro id hmem
    refine ⟨fun h => absurd h (List.not_mem_nil id),
      fun h => absurd h (List.not_mem_nil id), ?_⟩
    intro hh
    subst hh
    exact htrig (dedupFirst_subset _ _ hmem)

/-- C2 (amended): for every run whose steps perform no extra context writes
and none of which is named `trigger`, a normal return leaves no pending
step, and the results store contains the trigger entry plus exactly one
entry per executed step — i.e. per succeeded or failed step — while a
skipped step leaves no entry (contrary to the original claim, which also
promised entries for skipped steps; see `claim_C2_counterexample`). -/
theorem claim_C2_results (ctx : RunCtx) (fuel : Nat) (stF : RunState)
    (hpure : ∀ s ∈ ctx.steps, ∀ inp r, (s.execute inp r).1 = [])
    (htrig : "trigger" ∉ ctx.steps.map (fun s => s.config.id))
    (hrun : runLoop ctx fuel (initState ctx) = some (.ok stF)) :
    stF.pendingSteps = [] ∧
    lookupKey stF.results "trigger" ≠ none ∧
    (∀ id ∈ stF.executedSteps, lookupKey stF.results id ≠ none) ∧
    (∀ id ∈ stF.skippedSteps, lookupKey stF.results id = none) := by
  obtain ⟨⟨_, htr, hex, hkeys, hsk, _⟩, hpend⟩ :=
    runLoop_c2inv ctx hpure fuel (initState ctx) stF
      (initState_c2inv ctx htrig) hrun
  refine ⟨hpend, htr, hex, ?_⟩
  intro id hmem
  cases hl : lookupKey stF.results id with
  | none => rfl
  | some v =>
    exfalso
    rcases hkeys id (by rw [hl]; simp) with hh | hh
    · exact (hsk id hmem).2 hh
    · exact (hsk id hmem).1 hh

/-- A step that returns 10, used by concrete runs. -/
def stepTen : Step :=
  createStep ⟨"a", "returns ten", none, fun _ _ => ([], .ok (.num 10))⟩

/-- `stepTen` gated on the trigger being the number 1. -/
def wGated : Workflow :=
  (createWorkflow ⟨"wf", none⟩).addStep stepTen
    (some ⟨some ⟨⟨"trigger", none⟩,
      .mk (.num 1) .undefined none none none none none none none none none⟩,
      none⟩)

/-- Counterexample to C2 as stated: running `wGated` with trigger `2` skips
step `a` (the final scheduler state records it as skipped, with nothing
pending) and returns normally, yet the returned map has no entry for the
skipped step — it contains only the trigger entry. -/
theorem claim_C2_counterexample :
    runLoop (RunCtx.ofWorkflow wGated (.num 2)) 2
        (initState (RunCtx.ofWorkflow wGated (.num 2)))
      = some (.ok ⟨[("trigger", .num 2)], [], [], ["a"]⟩) ∧
    runWorkflow wGated (.num 2) = .ok [("trigger", .num 2)] ∧
    lookupKey [("trigger", Value.num 2)] "a" = none :=
  ⟨rfl, rfl, rfl⟩

/-- The terminal scheduler state of a two-step chain run, for the C2
witness. -/
def chainFinalState : RunState :=
  ⟨[("d", failedMarker "boom"), ("r", failedMarker "boom"),
    ("trigger", .num 0)], ["d", "r"], [], []⟩

/-- Witness for C2 at a concrete input: the contained-failure chain run ends
with nothing pending, the trigger entry present and an entry for both
executed steps. -/
theorem claim_C2_witness :
    chainFinalState.pendingSteps = [] ∧
    lookupKey chainFinalState.results "trigger" ≠ none ∧
    (∀ id ∈ chainFinalState.executedSteps,
      lookupKey chainFinalState.results id ≠ none) ∧
    (∀ id ∈ chainFinalState.skippedSteps,
      lookupKey chainFinalState.results id = none) := by
  have h := claim_C2_results ctxContained 3 chainFinalState
    (by
      intro s hs inp r
      rw [show ctxContained.steps = [failingStep, downstreamStep] from rfl]
        at hs
      rcases List.mem_cons.mp hs with hh | hh
      · rw [hh]; rfl
      · rcases List.mem_cons.mp hh with hg | hg
        · rw [hg]; rfl
        · exact absurd hg (List.not_mem_nil s))
    (by decide) rfl
  exact h

/-- C5 (amended): `step()` performs no validation at all — in particular no
id-uniqueness check.  Its source body contains no throw path, so
registration always succeeds and appends the step; when the id is already a
dependency key and no `after` marker is pending, the dependency record is
left exactly as it was (the duplicate silently shares the existing
entry). -/
theorem claim_C5_addStep_no_validation (w : Workflow) (s : Step)
    (o : Option StepOptions) :
    (w.addStep s o).steps = w.steps ++ [s] ∧
    (∀ l, lookupKey w.dependencies s.config.id = some l →
      w.currentDependency = none →
      (w.addStep s o).dependencies = w.dependencies) := by
  constructor
  · rfl
  · intro l hl hcur
    simp [Workflow.addStep, hl, hcur, currentDepTruthy]

/-- The single-step workflow with its sole step registered twice. -/
def wDup : Workflow := wSingle.addStep (mkStep "a") none

/-- Counterexample to C5 as stated: registering a second step with the
already-registered id `a` surfaces no error — `step()` returns the builder
with both registrations in the step list (sharing one dependency entry),
and even `commit` accepts the result. -/
theorem claim_C5_counterexample :
    wDup.steps.map (fun s => s.config.id) = ["a", "a"] ∧
    wDup.dependencies = [("a", [])] ∧
    wDup.commit = .ok wDup :=
  ⟨rfl, rfl, rfl⟩

/-- Witness for C5 at a concrete input: the duplicate registration appends
the step and reuses the existing dependency entry. -/
theorem claim_C5_witness :
    (wSingle.addStep (mkStep "a") none).steps = wSingle.steps ++ [mkStep "a"] ∧
    (wSingle.addStep (mkStep "a") none).dependencies = wSingle.dependencies :=
  ⟨(claim_C5_addStep_no_validation wSingle (mkStep "a") none).1,
   (claim_C5_addStep_no_validation wSingle (mkStep "a") none).2 [] rfl rfl⟩
